import Mathlib

/-!
Verification development for `model/measure-sweeping-revocation.py` of the
memory-alloc-analysis repository.

The interval-tree state of `AllocatorAddrSpaceModel` (`self._addr_ivals`, an
`intervaltree.IntervalTree`) is embedded as a list of address intervals with
integer endpoints; the library's overlap queries, `chop`, `add` and `remove`
are embedded by their documented semantics.  The coalesced `IntervalMap`
(`common/intervalmap.py`, used for the byte aggregates) is modelled from the
spec further below.  Machine addresses are Python unbounded integers in the
source, embedded as `Int`.
-/

namespace MSR

/-- `AddrIvalState` of measure-sweeping-revocation.py. -/
inductive AddrIvalState where
  | ALLOCD
  | FREED
  | REVOKED
  | MAPD
  | UNMAPD
deriving DecidableEq, Repr

open AddrIvalState

/-- `AddrIval`: a half-open address interval `[lo, hi)` tagged with a state
(`begin`/`end` in the source; `end` is a Lean keyword). -/
structure AddrIval where
  lo : Int
  hi : Int
  state : AddrIvalState
deriving DecidableEq, Repr

abbrev Tree := List AddrIval

/-- `i` covers address point `p` (half-open interval membership). -/
def coversB (i : AddrIval) (p : Int) : Bool :=
  decide (i.lo ≤ p) && decide (p < i.hi)

/-- `tree[point]` of the intervaltree library: all intervals covering `p`. -/
def queryPoint (t : Tree) (p : Int) : Tree :=
  t.filter (fun i => coversB i p)

/-- The list of states found covering point `p`. -/
def statesAt (t : Tree) (p : Int) : List AddrIvalState :=
  (queryPoint t p).map (fun i => i.state)

/-- `intervaltree_query_checked`: the unique covering interval (the source
asserts that at most one interval covers any point). -/
def intervaltree_query_checked (t : Tree) (p : Int) : Option AddrIval :=
  (queryPoint t p).head?

/-- `i` overlaps the half-open range `[b, e)` (the library's slice query
criterion). -/
def overlapsB (i : AddrIval) (b e : Int) : Bool :=
  decide (i.lo < e) && decide (b < i.hi)

/-- `tree[b:e]` of the intervaltree library: intervals overlapping `[b, e)`,
returned whole (not clipped). -/
def queryRange (t : Tree) (b e : Int) : Tree :=
  t.filter (fun i => overlapsB i b e)

/-- The remnants of interval `i` after `tree.chop(b, e)` removes the part of
`i` lying inside `[b, e)`: an interval not overlapping the range is kept
whole, an overlapping one leaves its parts before `b` and after `e`.  (The
library raises on `b ≥ e`, so only `b ≤ e` is ever used.) -/
def piecesOf (b e : Int) (i : AddrIval) : Tree :=
  if i.hi ≤ b ∨ e ≤ i.lo then [i]
  else
    (if i.lo < b then [⟨i.lo, b, i.state⟩] else []) ++
    (if e < i.hi then [⟨e, i.hi, i.state⟩] else [])

/-- `tree.chop(b, e)`: remove every interval part lying inside `[b, e)`. -/
def chop : Tree → Int → Int → Tree
  | [], _, _ => []
  | i :: t, b, e => piecesOf b e i ++ chop t b e

/-- Intervals `i` and `j` occupy disjoint address ranges. -/
def ivalDisjoint (i j : AddrIval) : Prop := i.hi ≤ j.lo ∨ j.hi ≤ i.lo

/-- All intervals of the tree are non-null (`begin < end`, as the
intervaltree library enforces on `add`). -/
def NonNull (t : Tree) : Prop := ∀ i ∈ t, i.lo < i.hi

/-- Well-formed tree: non-null intervals, pairwise disjoint.  This is the
source's "no overlapping address intervals" invariant. -/
def WF (t : Tree) : Prop := NonNull t ∧ t.Pairwise ivalDisjoint

instance (i j : AddrIval) : Decidable (ivalDisjoint i j) := by
  unfold ivalDisjoint; infer_instance

instance (t : Tree) : Decidable (NonNull t) := by
  unfold NonNull; infer_instance

instance (t : Tree) : Decidable (WF t) := by
  unfold WF; infer_instance

/-! ## AllocatorAddrSpaceModel events on the interval tree

`allocd`, `freed`, `revoked` from the source.  `super()._update(...)` only
maintains the byte aggregates over the separate coalesced `IntervalMap` and
prints; it never touches `_addr_ivals`, so it is modelled separately below.
Logging calls are omitted (they only write diagnostics). -/

/-- The allocated-overlap precondition check of
`AllocatorAddrSpaceModel.revoked`: some given range overlaps an interval
that is still `ALLOCD`. -/
def revokedCheck (t : Tree) (bes : List (Int × Int)) : Bool :=
  bes.any (fun be => (queryRange t be.1 be.2).any (fun i => i.state = ALLOCD))

/-- One committed revocation: `chop(b, e)` then `add(AddrIval(b, e, REVOKED))`. -/
def revokedCommitOne (t : Tree) (b e : Int) : Tree :=
  ⟨b, e, REVOKED⟩ :: chop t b e

/-- `AllocatorAddrSpaceModel.revoked(*bes)`: first every range is checked
against still-allocated intervals (the `assert` aborts, returning an error
and leaving the tree untouched), then each range is chopped out and
rewritten as `REVOKED`. -/
def revoked (t : Tree) (bes : List (Int × Int)) : Option String × Tree :=
  if revokedCheck t bes then
    (some "Bug: revoking address intervals that are still allocated", t)
  else
    (none, bes.foldl (fun acc be => revokedCommitOne acc be.1 be.2) t)

/-- `AllocatorAddrSpaceModel.freed(begin)`: look up the interval at `begin`;
if found, remove it and re-add its full span as `FREED` (misfrees only log a
warning); otherwise synthesize a one-byte `FREED` interval at `begin`. -/
def freed (t : Tree) (b : Int) : Tree :=
  match intervaltree_query_checked t b with
  | some i => ⟨i.lo, i.hi, FREED⟩ :: t.erase i
  | none => ⟨b, b + 1, FREED⟩ :: t

/-- `BaseSweepingRevoker._sweep(amount, addr_ivals)`: if the number of
intervals exceeds `_capacity_ivals` the call raises (a `NameError`, since the
source misspells `ValuError`) and the `swept` counter is left as it was;
otherwise `swept += amount`.  `amount` is always the sampled address-space
size `addr_space.size` at the call sites, never the intervals' total size. -/
def sweep (capacity_ivals swept amount : Nat) (addr_ivals : List AddrIval) :
    Option String × Nat :=
  if capacity_ivals < addr_ivals.length then
    (some "exceeds the limit for intervals at once", swept)
  else
    (none, swept + amount)

/-- The revokers' revocation loop `for ival in intervals:
alloc_state.revoked(ival.begin, ival.end)`: one `revoked` call per interval;
an assertion failure inside `revoked` aborts the loop. -/
def revokeList : Tree → List AddrIval → Option String × Tree
  | t, [] => (none, t)
  | t, i :: rest =>
    match revoked t [(i.lo, i.hi)] with
    | (some msg, t1) => (some msg, t1)
    | (none, t1) => revokeList t1 rest

/-- `NaiveSweepingRevoker.reused(alloc_state, begin, end)`: take the `FREED`
intervals overlapping `[begin, end)` (whole intervals, as the range query
returns them), sweep them in one `_sweep` call charged `amount` bytes, then
revoke each.  Returns (error, swept, tree). -/
def naiveReused (cap amount swept : Nat) (t : Tree) (b e : Int) :
    Option String × Nat × Tree :=
  let intervals := (queryRange t b e).filter (fun i => i.state = FREED)
  if intervals.isEmpty then (none, swept, t)
  else
    match sweep cap swept amount intervals with
    | (some msg, sw) => (some msg, sw, t)
    | (none, sw) =>
      let r := revokeList t intervals
      (r.1, sw, r.2)

/-! ## The compacting revoker's coalescing walk
(`intervaltree_query_coalesced` and `CompactingSweepingRevoker.reused`). -/

theorem mem_cover_of_query_checked {t : Tree} {p : Int} {i : AddrIval}
    (h : intervaltree_query_checked t p = some i) :
    i ∈ t ∧ coversB i p = true := by
  unfold intervaltree_query_checked at h
  have hm : i ∈ queryPoint t p := by
    cases hq : queryPoint t p with
    | nil => rw [hq] at h; simp at h
    | cons a l => rw [hq] at h; simp at h; subst h; simp [hq]
  unfold queryPoint at hm
  exact ⟨List.mem_of_mem_filter hm, @List.of_mem_filter _ (fun i => coversB i p) i t hm⟩

theorem length_filter_mono {α : Type} (t : List α) (p q : α → Bool)
    (himp : ∀ x ∈ t, p x = true → q x = true) :
    (t.filter p).length ≤ (t.filter q).length := by
  induction t with
  | nil => simp
  | cons a l ih =>
    have ihl := ih (fun y hy => himp y (List.mem_cons_of_mem a hy))
    rw [List.filter_cons, List.filter_cons]
    cases hpa : p a with
    | false => cases hqa : q a <;> simp <;> omega
    | true =>
      rw [himp a (List.mem_cons_self a l) hpa]
      simp; omega

theorem length_filter_lt {α : Type} (t : List α) (p q : α → Bool)
    (himp : ∀ x ∈ t, p x = true → q x = true) (x : α) (hx : x ∈ t)
    (hq : q x = true) (hp : p x = false) :
    (t.filter p).length < (t.filter q).length := by
  induction t with
  | nil => cases hx
  | cons a l ih =>
    have hmono := length_filter_mono l p q
      (fun y hy => himp y (List.mem_cons_of_mem a hy))
    rw [List.filter_cons, List.filter_cons]
    rcases List.mem_cons.mp hx with rfl | hx2
    · rw [hp, hq]; simp; omega
    · have ihl := ih (fun y hy => himp y (List.mem_cons_of_mem a hy)) hx2
      cases hpa : p a with
      | false => cases hqa : q a <;> simp <;> omega
      | true =>
        rw [himp a (List.mem_cons_self a l) hpa]
        simp; omega

/-- Number of intervals strictly left of `c` — termination measure for the
leftward coalescing walk. -/
def leftCount (t : Tree) (c : AddrIval) : Nat :=
  (t.filter (fun j => decide (j.lo < c.lo))).length

/-- Number of intervals ending strictly right of `c` — termination measure
for the rightward coalescing walk. -/
def rightCount (t : Tree) (c : AddrIval) : Nat :=
  (t.filter (fun j => decide (c.hi < j.hi))).length

theorem leftCount_lt {t : Tree} {c i : AddrIval}
    (h : intervaltree_query_checked t (c.lo - 1) = some i) :
    leftCount t i < leftCount t c := by
  obtain ⟨hm, hc⟩ := mem_cover_of_query_checked h
  unfold coversB at hc
  simp only [Bool.and_eq_true, decide_eq_true_eq] at hc
  apply length_filter_lt
  · intro x _ hx
    simp only [decide_eq_true_eq] at hx ⊢
    omega
  · exact hm
  · simp only [decide_eq_true_eq]; omega
  · simp

theorem rightCount_lt {t : Tree} {c i : AddrIval}
    (h : intervaltree_query_checked t c.hi = some i) :
    rightCount t i < rightCount t c := by
  obtain ⟨hm, hc⟩ := mem_cover_of_query_checked h
  unfold coversB at hc
  simp only [Bool.and_eq_true, decide_eq_true_eq] at hc
  apply length_filter_lt
  · intro x _ hx
    simp only [decide_eq_true_eq] at hx ⊢
    omega
  · exact hm
  · simp only [decide_eq_true_eq]; omega
  · simp

/-- The leftward arm of `intervaltree_query_coalesced`: starting from an
interval whose state is in the coalesce set, repeatedly step to the interval
covering `begin - 1` while its state stays in the set; return the final
`begin`. -/
def walkLeft (t : Tree) (s : List AddrIvalState) (c : AddrIval) : Int :=
  match h : intervaltree_query_checked t (c.lo - 1) with
  | none => c.lo
  | some i => if i.state ∈ s then walkLeft t s i else c.lo
termination_by leftCount t c
decreasing_by exact leftCount_lt h

/-- The rightward arm of `intervaltree_query_coalesced`: repeatedly step to
the interval covering `end` while its state stays in the coalesce set;
return the final `end`. -/
def walkRight (t : Tree) (s : List AddrIvalState) (c : AddrIval) : Int :=
  match h : intervaltree_query_checked t c.hi with
  | none => c.hi
  | some i => if i.state ∈ s then walkRight t s i else c.hi
termination_by rightCount t c
decreasing_by exact rightCount_lt h

/-- `intervaltree_query_coalesced(tree, point, coalesce_with=...)`: find the
interval at `point` and extend it left and right over touching intervals
whose state is the found interval's state or in `coalesce_with`. -/
def intervaltree_query_coalesced (t : Tree) (p : Int)
    (coalesce_with : List AddrIvalState) : Option AddrIval :=
  match intervaltree_query_checked t p with
  | none => none
  | some ival =>
    let coal := ival.state :: coalesce_with
    some ⟨walkLeft t coal ival, walkRight t coal ival, ival.state⟩

/-- The intervaltree `Interval` ordering used by `intervals.sort`: by
`(begin, end)`. -/
def lexLe (i j : AddrIval) : Bool :=
  decide (i.lo < j.lo) || (decide (i.lo = j.lo) && decide (i.hi ≤ j.hi))

/-- Ordered insertion for `sortAsc`. -/
def insertAsc (i : AddrIval) : Tree → Tree
  | [] => [i]
  | j :: t => if lexLe i j then i :: j :: t else j :: insertAsc i t

/-- Ascending `(begin, end)` sort.  The source sorts descending
(`sort(reverse=True)`) and then consumes the list from its tail with `pop()`,
i.e. in ascending order; the embedding sorts ascending and consumes from the
head. -/
def sortAsc (l : Tree) : Tree := l.foldr insertAsc []

theorem length_dropWhile_le_self (p : AddrIval → Bool) (l : Tree) :
    (l.dropWhile p).length ≤ l.length := by
  induction l with
  | nil => simp
  | cons a l ih =>
    rw [List.dropWhile_cons]
    cases p a <;> simp <;> omega

/-- The batch-building loop of `CompactingSweepingRevoker.reused`: take the
next (lowest) `FREED` interval, coalesce it over touching `FREED`/`REVOKED`
neighbours, emit the merged interval, and drop the following seeds it
already covers (the source asserts they start strictly inside it). -/
def compactLoop (t : Tree) : Tree → Tree
  | [] => []
  | seed :: rest =>
    match intervaltree_query_coalesced t seed.lo [REVOKED] with
    | none =>
      -- unreachable for a disjoint tree containing `seed`; the source would
      -- fault here dereferencing None
      compactLoop t rest
    | some ival =>
      ival :: compactLoop t (rest.dropWhile (fun j => decide (j.lo ≤ ival.hi)))
termination_by l => l.length
decreasing_by
  · simp only [List.length_cons]; omega
  · simp only [List.length_cons]
    exact Nat.lt_succ_of_le (length_dropWhile_le_self _ _)

/-- The full coalesced sweep batch of `CompactingSweepingRevoker.reused`:
all currently `FREED` intervals of the whole tree, sorted, coalesced. -/
def compactBatch (t : Tree) : Tree :=
  compactLoop t (sortAsc (t.filter (fun i => i.state = FREED)))

/-- `CompactingSweepingRevoker.reused(alloc_state, begin, end)`: rescan the
entire tree for `FREED` intervals, coalesce, sweep the whole batch in one
`_sweep` call, then revoke each merged interval.  The triggering range
`[b, e)` is never consulted. -/
def compactingReused (cap amount swept : Nat) (t : Tree) (b e : Int) :
    Option String × Nat × Tree :=
  let intervals_coalesced := compactBatch t
  if intervals_coalesced.isEmpty then (none, swept, t)
  else
    match sweep cap swept amount intervals_coalesced with
    | (some msg, sw) => (some msg, sw, t)
    | (none, sw) =>
      let r := revokeList t intervals_coalesced
      (r.1, sw, r.2)

/-! ## `AllocatorAddrSpaceModel.allocd` with its pre-commit publish

The `Publisher` mix-in (`common/misc.py`, not under src/) fans the `reused`
notification out to the registered subscribers before `allocd` commits; the
subscriber chain is embedded as one function from the (pre-commit) tree and
range to (error, subscriber payload, mutated tree).  An exception raised by a
subscriber propagates out of `allocd` before the commit, as in Python. -/

/-- Result of one `allocd` call: the published notification (the pre-commit
tree and the reused range), the propagated error if a subscriber raised, the
subscriber's own state, and the final tree. -/
structure AllocResult (σ : Type) where
  published : Option (Tree × Int × Int)
  err : Option String
  sub : σ
  tree : Tree

/-- `AllocatorAddrSpaceModel.allocd(begin, end)`: query the overlaps of
`[b, e)`; if any overlap is `FREED`, publish `reused` to the subscribers
(which receive the model in its pre-commit state); then chop the range out
(only if there were overlaps) and add `[b, e)` as `ALLOCD`.  Overlaps with
existing `ALLOCD` intervals are only logged. -/
def allocd {σ : Type} (t : Tree) (b e : Int)
    (subf : Tree → Int → Int → Option String × σ × Tree) (s0 : σ) :
    AllocResult σ :=
  let overlaps := queryRange t b e
  let overlaps_freed := overlaps.filter (fun i => i.state = FREED)
  let pub : Option (Tree × Int × Int) × Option String × σ × Tree :=
    if overlaps_freed.isEmpty then (none, none, s0, t)
    else (some (t, b, e), subf t b e)
  match pub with
  | (published, some msg, s1, t1) => ⟨published, some msg, s1, t1⟩
  | (published, none, s1, t1) =>
    let t2 := if overlaps.isEmpty then t1 else chop t1 b e
    ⟨published, none, s1, ⟨b, e, ALLOCD⟩ :: t2⟩

/-! ## The replayed system

`Run` (`common/run.py`, not under src/) dispatches each trace event to the
model; the spec's §5 single-threaded event model.  The system couples the
allocator tree with the selected revoker's cumulative `swept` counter;
`amount` is the sampled `addr_space.size` (0 for a fresh model with no size
samples), `cap` the revoker's `_capacity_ivals`. -/

inductive Strategy where
  | naive
  | compacting
  | nosub
deriving DecidableEq, Repr

/-- The subscriber function a strategy registers on the model (`nosub` is
the `account` configuration, which registers no revoker on the model). -/
def subFor : Strategy → Nat → Nat → Nat → Tree → Int → Int →
    Option String × Nat × Tree
  | .naive => naiveReused
  | .compacting => compactingReused
  | .nosub => fun _ _ sw t _ _ => (none, sw, t)

structure Sys where
  tree : Tree
  swept : Nat
  err : Option String
deriving DecidableEq, Repr

inductive TraceOp where
  | alloc (b e : Int)
  | free (b : Int)
  | revoke (bes : List (Int × Int))
deriving DecidableEq, Repr

/-- One replayed trace event against the allocator model (with the
strategy's revoker subscribed for `reused` notifications). -/
def stepOp (strat : Strategy) (cap amount : Nat) (s : Sys) : TraceOp → Sys
  | .alloc b e =>
    let r := allocd s.tree b e (subFor strat cap amount s.swept) s.swept
    ⟨r.tree, r.sub, r.err⟩
  | .free b => ⟨freed s.tree b, s.swept, none⟩
  | .revoke bes =>
    let r := revoked s.tree bes
    ⟨r.2, s.swept, r.1⟩

/-- Replay a trace; a fatal error (assertion/exception) aborts the replay,
freezing the state. -/
def runTrace (strat : Strategy) (cap amount : Nat) (ops : List TraceOp)
    (s : Sys) : Sys :=
  ops.foldl (fun s op => if s.err.isSome then s else stepOp strat cap amount s op) s

def initSys : Sys := ⟨[], 0, none⟩

/-- Well-formedness of a trace event: ranges are non-null, as the
intervaltree library enforces (`add`/`chop` raise on null intervals). -/
def opWF : TraceOp → Prop
  | .alloc b e => b < e
  | .free _ => True
  | .revoke bes => ∀ be ∈ bes, be.1 < be.2

instance (op : TraceOp) : Decidable (opWF op) := by
  cases op <;> (unfold opWF; infer_instance)

/-- The spec's Naive scenario: `allocate(0,100); free(0); allocate(50,150)`
on a fresh model. -/
def scenarioOps : List TraceOp := [.alloc 0 100, .free 0, .alloc 50 150]

def naiveScenario : Sys := runTrace .naive (2 ^ 64) 0 scenarioOps initSys

/-! ## Pointwise lemmas about the tree operations -/

theorem coversB_iff (i : AddrIval) (p : Int) :
    (coversB i p = true) ↔ (i.lo ≤ p ∧ p < i.hi) := by
  unfold coversB; simp

theorem queryPoint_append (l1 l2 : Tree) (p : Int) :
    queryPoint (l1 ++ l2) p = queryPoint l1 p ++ queryPoint l2 p := by
  unfold queryPoint; exact List.filter_append _ _

theorem statesAt_append (l1 l2 : Tree) (p : Int) :
    statesAt (l1 ++ l2) p = statesAt l1 p ++ statesAt l2 p := by
  unfold statesAt; rw [queryPoint_append, List.map_append]

theorem statesAt_single_of_cover {i : AddrIval} {p : Int} (h1 : i.lo ≤ p)
    (h2 : p < i.hi) : statesAt [i] p = [i.state] := by
  unfold statesAt queryPoint
  rw [List.filter_cons_of_pos]
  · rfl
  · unfold coversB; simp; omega

theorem statesAt_single_of_not {i : AddrIval} {p : Int}
    (h : p < i.lo ∨ i.hi ≤ p) : statesAt [i] p = [] := by
  unfold statesAt queryPoint
  rw [List.filter_cons_of_neg]
  · rfl
  · unfold coversB; simp; omega

theorem queryPoint_piecesOf_inside {b e p : Int} (hb : b ≤ p) (he : p < e)
    (i : AddrIval) : queryPoint (piecesOf b e i) p = [] := by
  unfold piecesOf queryPoint
  split_ifs with h1 h2 h3 <;>
    simp only [List.filter_append, List.filter_cons, List.filter_nil,
      List.append_nil, List.nil_append] <;>
    split_ifs with g1 g2 <;>
    simp_all [coversB_iff] <;> omega

theorem statesAt_piecesOf_outside {b e p : Int} (hbe : b ≤ e)
    (hout : p < b ∨ e ≤ p) (i : AddrIval) :
    statesAt (piecesOf b e i) p = statesAt [i] p := by
  unfold piecesOf
  by_cases hapart : i.hi ≤ b ∨ e ≤ i.lo
  · rw [if_pos hapart]
  · rw [if_neg hapart]
    push_neg at hapart
    obtain ⟨hb1, he1⟩ := hapart
    by_cases hcov : i.lo ≤ p ∧ p < i.hi
    · -- `i` covers `p`; exactly one remnant covers `p`
      obtain ⟨hc1, hc2⟩ := hcov
      rw [statesAt_single_of_cover hc1 hc2]
      rcases hout with hpb | hpe
      · rw [if_pos (by omega : i.lo < b)]
        by_cases hp2 : e < i.hi
        · rw [if_pos hp2, statesAt_append,
            statesAt_single_of_cover (i := ⟨i.lo, b, i.state⟩) (by simp; omega)
              (by simp; omega),
            statesAt_single_of_not (i := ⟨e, i.hi, i.state⟩) (by simp; omega)]
          rfl
        · rw [if_neg hp2, List.append_nil,
            statesAt_single_of_cover (i := ⟨i.lo, b, i.state⟩) (by simp; omega)
              (by simp; omega)]
      · rw [if_pos (by omega : e < i.hi)]
        by_cases hp1 : i.lo < b
        · rw [if_pos hp1, statesAt_append,
            statesAt_single_of_not (i := ⟨i.lo, b, i.state⟩) (by simp; omega),
            statesAt_single_of_cover (i := ⟨e, i.hi, i.state⟩) (by simp; omega)
              (by simp; omega)]
          rfl
        · rw [if_neg hp1, List.nil_append,
            statesAt_single_of_cover (i := ⟨e, i.hi, i.state⟩) (by simp; omega)
              (by simp; omega)]
    · -- `i` does not cover `p`, and neither does any remnant
      rw [statesAt_single_of_not (by omega)]
      by_cases hp1 : i.lo < b <;> by_cases hp2 : e < i.hi
      · rw [if_pos hp1, if_pos hp2, statesAt_append,
          statesAt_single_of_not (i := ⟨i.lo, b, i.state⟩) (by simp; omega),
          statesAt_single_of_not (i := ⟨e, i.hi, i.state⟩) (by simp; omega)]
        rfl
      · rw [if_pos hp1, if_neg hp2, List.append_nil,
          statesAt_single_of_not (i := ⟨i.lo, b, i.state⟩) (by simp; omega)]
      · rw [if_neg hp1, if_pos hp2, List.nil_append,
          statesAt_single_of_not (i := ⟨e, i.hi, i.state⟩) (by simp; omega)]
      · rw [if_neg hp1, if_neg hp2]
        rfl

theorem queryPoint_chop_inside {b e p : Int} (hb : b ≤ p) (he : p < e)
    (t : Tree) : queryPoint (chop t b e) p = [] := by
  induction t with
  | nil => rfl
  | cons i t ih =>
    show queryPoint (piecesOf b e i ++ chop t b e) p = []
    rw [queryPoint_append, ih, queryPoint_piecesOf_inside hb he]
    rfl

theorem statesAt_chop_outside {b e p : Int} (hbe : b ≤ e)
    (hout : p < b ∨ e ≤ p) (t : Tree) :
    statesAt (chop t b e) p = statesAt t p := by
  induction t with
  | nil => rfl
  | cons i t ih =>
    show statesAt (piecesOf b e i ++ chop t b e) p = statesAt (i :: t) p
    rw [statesAt_append, ih, statesAt_piecesOf_outside hbe hout]
    show statesAt [i] p ++ statesAt t p = statesAt (i :: t) p
    unfold statesAt queryPoint
    cases hc : coversB i p <;> simp [List.filter_cons, hc]

/-- Chopping `[b, e)` out and adding `⟨b, e, s⟩` makes `s` the unique state
at every point inside the range, for any (even non-disjoint) tree. -/
theorem statesAt_overwrite_inside {b e p : Int} (hb : b ≤ p) (he : p < e)
    (t : Tree) (s : AddrIvalState) :
    statesAt (⟨b, e, s⟩ :: chop t b e) p = [s] := by
  unfold statesAt queryPoint
  rw [List.filter_cons]
  have hc : coversB ⟨b, e, s⟩ p = true := by
    unfold coversB; simp; omega
  rw [hc]
  have := queryPoint_chop_inside hb he t
  unfold queryPoint at this
  simp [this]

theorem statesAt_overwrite_outside {b e p : Int} (hbe : b ≤ e)
    (hout : p < b ∨ e ≤ p) (t : Tree) (s : AddrIvalState) :
    statesAt (⟨b, e, s⟩ :: chop t b e) p = statesAt t p := by
  unfold statesAt queryPoint
  rw [List.filter_cons]
  have hc : coversB ⟨b, e, s⟩ p = false := by
    unfold coversB; simp; omega
  rw [hc]
  have := statesAt_chop_outside hbe hout t
  unfold statesAt queryPoint at this
  simp at this ⊢
  exact this

theorem statesAt_revokedCommitOne_inside {b e p : Int} (hb : b ≤ p)
    (he : p < e) (t : Tree) :
    statesAt (revokedCommitOne t b e) p = [REVOKED] :=
  statesAt_overwrite_inside hb he t REVOKED

theorem statesAt_revokedCommitOne_outside {b e p : Int} (hbe : b ≤ e)
    (hout : p < b ∨ e ≤ p) (t : Tree) :
    statesAt (revokedCommitOne t b e) p = statesAt t p :=
  statesAt_overwrite_outside hbe hout t REVOKED

/-! ## Disjointness: unique covering intervals -/

theorem queryPoint_eq_single :
    ∀ {t : Tree}, WF t → ∀ {i : AddrIval} {p : Int}, i ∈ t →
      coversB i p = true → queryPoint t p = [i] := by
  intro t
  induction t with
  | nil => intro _ i p hm; cases hm
  | cons a t' ih =>
    intro hwf i p hm hc
    obtain ⟨hnn, hpw⟩ := hwf
    obtain ⟨hrel, hpw'⟩ := List.pairwise_cons.mp hpw
    have hwf' : WF t' := ⟨fun j hj => hnn j (List.mem_cons_of_mem a hj), hpw'⟩
    rcases List.mem_cons.mp hm with rfl | hm'
    · have hrest : List.filter (fun j => coversB j p) t' = [] := by
        apply List.filter_eq_nil_iff.mpr
        intro j hj
        have hd := hrel j hj
        rw [coversB_iff] at hc
        unfold ivalDisjoint at hd
        simp only [coversB_iff, decide_eq_true_eq]
        omega
      unfold queryPoint
      simp [List.filter_cons, hc, hrest]
    · have hca : coversB a p = false := by
        cases hca : coversB a p with
        | false => rfl
        | true =>
          exfalso
          have hd := hrel i hm'
          rw [coversB_iff] at hc hca
          unfold ivalDisjoint at hd
          omega
      have := ih hwf' hm' hc
      unfold queryPoint at this ⊢
      simp [List.filter_cons, hca, this]

theorem statesAt_eq_single {t : Tree} (hwf : WF t) {i : AddrIval} {p : Int}
    (hm : i ∈ t) (hc : coversB i p = true) : statesAt t p = [i.state] := by
  unfold statesAt
  rw [queryPoint_eq_single hwf hm hc]
  rfl

theorem queryPoint_length_le_one {t : Tree} (hwf : WF t) (p : Int) :
    (queryPoint t p).length ≤ 1 := by
  cases hq : queryPoint t p with
  | nil => simp
  | cons i l =>
    have hm : i ∈ queryPoint t p := by rw [hq]; exact List.mem_cons_self i l
    have := queryPoint_eq_single hwf (List.mem_of_mem_filter hm)
      (@List.of_mem_filter _ (fun j => coversB j p) i t hm)
    rw [hq] at this
    simp at this
    simp [this]

/-! ## The committed revocation fold -/

/-- After folding `revokedCommitOne` over a list of non-null ranges, every
point inside any of the ranges carries exactly the state `REVOKED`, and
every point outside all the ranges keeps its states. -/
theorem foldCommit_statesAt :
    ∀ (bes : List (Int × Int)) (t : Tree), (∀ be ∈ bes, be.1 < be.2) →
      (∀ be ∈ bes, ∀ p : Int, be.1 ≤ p → p < be.2 →
        statesAt (bes.foldl (fun acc be => revokedCommitOne acc be.1 be.2) t) p
          = [REVOKED]) ∧
      (∀ p : Int, (∀ be ∈ bes, ¬(be.1 ≤ p ∧ p < be.2)) →
        statesAt (bes.foldl (fun acc be => revokedCommitOne acc be.1 be.2) t) p
          = statesAt t p) := by
  intro bes
  induction bes with
  | nil => intro t _; exact ⟨fun be hbe => absurd hbe (by simp), fun p _ => rfl⟩
  | cons be rest ih =>
    intro t hwf
    have hbe := hwf be (List.mem_cons_self be rest)
    have ih' := ih (revokedCommitOne t be.1 be.2)
      (fun b hb => hwf b (List.mem_cons_of_mem be hb))
    rw [List.foldl_cons]
    constructor
    · intro be' hbe' p hp1 hp2
      rcases List.mem_cons.mp hbe' with rfl | hmem
      · by_cases hin : ∀ b ∈ rest, ¬(b.1 ≤ p ∧ p < b.2)
        · rw [ih'.2 p hin]
          exact statesAt_revokedCommitOne_inside hp1 hp2 t
        · push_neg at hin
          obtain ⟨b, hb, hbp1, hbp2⟩ := hin
          exact ih'.1 b hb p hbp1 hbp2
      · exact ih'.1 be' hmem p hp1 hp2
    · intro p hout
      rw [ih'.2 p (fun b hb => hout b (List.mem_cons_of_mem be hb))]
      exact statesAt_revokedCommitOne_outside (by omega)
        (by have := hout be (List.mem_cons_self be rest); omega) t

/-- Claim C6 helper: the allocated-overlap check of `revoked` succeeds
exactly when some given range overlaps a still-`ALLOCD` interval. -/
theorem revokedCheck_iff (t : Tree) (bes : List (Int × Int)) :
    revokedCheck t bes = true ↔
      ∃ be ∈ bes, ∃ i ∈ t, i.state = ALLOCD ∧ overlapsB i be.1 be.2 = true := by
  unfold revokedCheck queryRange
  simp only [List.any_eq_true, List.mem_filter, decide_eq_true_eq]
  constructor
  · rintro ⟨be, hbe, i, ⟨hi, hov⟩, hst⟩
    exact ⟨be, hbe, i, hi, hst, hov⟩
  · rintro ⟨be, hbe, i, hi, hst, hov⟩
    exact ⟨be, hbe, i, ⟨hi, hov⟩, hst⟩

/-! ## Chop and commit preserve well-formedness -/

theorem mem_chop {t : Tree} {b e : Int} {x : AddrIval} (hx : x ∈ chop t b e) :
    ∃ j ∈ t, x ∈ piecesOf b e j := by
  induction t with
  | nil => cases hx
  | cons i t ih =>
    rcases List.mem_append.mp hx with h | h
    · exact ⟨i, List.mem_cons_self i t, h⟩
    · obtain ⟨j, hj, hxj⟩ := ih h
      exact ⟨j, List.mem_cons_of_mem i hj, hxj⟩

theorem piecesOf_cases {b e : Int} {i x : AddrIval} (hx : x ∈ piecesOf b e i) :
    (x = i ∧ (i.hi ≤ b ∨ e ≤ i.lo)) ∨
    (x = ⟨i.lo, b, i.state⟩ ∧ i.lo < b ∧ b < i.hi ∧ i.lo < e) ∨
    (x = ⟨e, i.hi, i.state⟩ ∧ e < i.hi ∧ b < i.hi ∧ i.lo < e) := by
  unfold piecesOf at hx
  by_cases h1 : i.hi ≤ b ∨ e ≤ i.lo
  · rw [if_pos h1] at hx
    simp at hx
    exact Or.inl ⟨hx, h1⟩
  · rw [if_neg h1] at hx
    push_neg at h1
    rcases List.mem_append.mp hx with h | h
    · by_cases h2 : i.lo < b
      · rw [if_pos h2] at h
        simp at h
        exact Or.inr (Or.inl ⟨h, h2, h1.1, h1.2⟩)
      · rw [if_neg h2] at h
        cases h
    · by_cases h3 : e < i.hi
      · rw [if_pos h3] at h
        simp at h
        exact Or.inr (Or.inr ⟨h, h3, h1.1, h1.2⟩)
      · rw [if_neg h3] at h
        cases h

theorem piecesOf_subset {b e : Int} {i x : AddrIval} (hx : x ∈ piecesOf b e i) :
    i.lo ≤ x.lo ∧ x.hi ≤ i.hi ∧ x.state = i.state := by
  rcases piecesOf_cases hx with ⟨rfl, _⟩ | ⟨rfl, h⟩ | ⟨rfl, h⟩
  · exact ⟨le_refl _, le_refl _, rfl⟩
  · refine ⟨le_refl _, ?_, rfl⟩
    show b ≤ i.hi
    omega
  · refine ⟨?_, le_refl _, rfl⟩
    show i.lo ≤ e
    omega

theorem piecesOf_nonnull {b e : Int} {i x : AddrIval} (hnn : i.lo < i.hi)
    (hx : x ∈ piecesOf b e i) : x.lo < x.hi := by
  rcases piecesOf_cases hx with ⟨rfl, _⟩ | ⟨rfl, h⟩ | ⟨rfl, h⟩
  · exact hnn
  · show i.lo < b
    omega
  · show e < i.hi
    omega

theorem piecesOf_avoid {b e : Int} (hbe : b ≤ e) {i x : AddrIval}
    (hx : x ∈ piecesOf b e i) :
    (i.hi ≤ b ∨ e ≤ i.lo) ∨ (x.hi ≤ b ∨ e ≤ x.lo) := by
  rcases piecesOf_cases hx with ⟨rfl, h⟩ | ⟨rfl, h⟩ | ⟨rfl, h⟩
  · exact Or.inl h
  · right; left; simp
  · right; right; simp

theorem piecesOf_pairwise {b e : Int} (hbe : b ≤ e) (i : AddrIval) :
    (piecesOf b e i).Pairwise ivalDisjoint := by
  unfold piecesOf
  split_ifs with h1 h2 h3 <;>
    simp_all [ivalDisjoint] <;> omega

theorem NonNull_chop {t : Tree} (hnn : NonNull t) (b e : Int) :
    NonNull (chop t b e) := by
  intro x hx
  obtain ⟨j, hj, hxj⟩ := mem_chop hx
  exact piecesOf_nonnull (hnn j hj) hxj

theorem chop_pairwise {t : Tree} (hwf : WF t) {b e : Int} (hbe : b ≤ e) :
    (chop t b e).Pairwise ivalDisjoint := by
  obtain ⟨hnn, hpw⟩ := hwf
  induction t with
  | nil => exact List.Pairwise.nil
  | cons i t ih =>
    obtain ⟨hrel, hpw'⟩ := List.pairwise_cons.mp hpw
    have hnn' : NonNull t := fun j hj => hnn j (List.mem_cons_of_mem i hj)
    show (piecesOf b e i ++ chop t b e).Pairwise ivalDisjoint
    rw [List.pairwise_append]
    refine ⟨piecesOf_pairwise hbe i, ih hnn' hpw', ?_⟩
    intro x hx y hy
    obtain ⟨j, hj, hyj⟩ := mem_chop hy
    have hd := hrel j hj
    obtain ⟨hx1, hx2, _⟩ := piecesOf_subset hx
    obtain ⟨hy1, hy2, _⟩ := piecesOf_subset hyj
    unfold ivalDisjoint at hd ⊢
    omega

/-- Chopping a range out and adding a fresh interval covering exactly that
range preserves well-formedness. -/
theorem WF_overwrite {t : Tree} (hwf : WF t) {b e : Int} (hbe : b < e)
    (s : AddrIvalState) : WF (⟨b, e, s⟩ :: chop t b e) := by
  have hnn := hwf.1
  constructor
  · intro x hx
    rcases List.mem_cons.mp hx with rfl | hx'
    · exact hbe
    · exact NonNull_chop hnn b e x hx'
  · rw [List.pairwise_cons]
    refine ⟨?_, chop_pairwise hwf (by omega)⟩
    intro x hx
    obtain ⟨j, hj, hxj⟩ := mem_chop hx
    show e ≤ x.lo ∨ x.hi ≤ b
    rcases piecesOf_avoid (by omega : b ≤ e) hxj with hap | hav
    · obtain ⟨hx1, hx2, _⟩ := piecesOf_subset hxj
      omega
    · omega

theorem WF_revokedCommitOne {t : Tree} (hwf : WF t) {b e : Int} (hbe : b < e) :
    WF (revokedCommitOne t b e) :=
  WF_overwrite hwf hbe REVOKED

/-! ## The revokers' revocation loop -/

theorem state_mem_statesAt {t : Tree} {i : AddrIval} {p : Int} (hi : i ∈ t)
    (hc : coversB i p = true) : i.state ∈ statesAt t p := by
  unfold statesAt queryPoint
  exact List.mem_map_of_mem _ (List.mem_filter.mpr ⟨hi, hc⟩)

theorem revokedCheck_single_false {t : Tree} (hnn : NonNull t) {b e : Int}
    (hbe : b < e)
    (hnoA : ∀ p : Int, b ≤ p → p < e → ALLOCD ∉ statesAt t p) :
    revokedCheck t [(b, e)] = false := by
  cases hchk : revokedCheck t [(b, e)] with
  | false => rfl
  | true =>
    exfalso
    obtain ⟨be, hbe', i, hi, hst, hov⟩ := (revokedCheck_iff _ _).mp hchk
    simp at hbe'
    subst hbe'
    unfold overlapsB at hov
    simp only [Bool.and_eq_true, decide_eq_true_eq] at hov
    have hinn := hnn i hi
    have hcov : coversB i (max i.lo b) = true := by
      rw [coversB_iff]
      constructor
      · exact le_max_left _ _
      · omega
    have hmem := state_mem_statesAt hi hcov
    rw [hst] at hmem
    exact hnoA (max i.lo b) (le_max_right _ _) (by omega) hmem

theorem revoked_single_ok {t : Tree} {b e : Int}
    (hchk : revokedCheck t [(b, e)] = false) :
    revoked t [(b, e)] = (none, revokedCommitOne t b e) := by
  unfold revoked
  rw [if_neg (by simp [hchk])]
  rfl

/-- Master lemma for the revokers' `for ival in intervals:
alloc_state.revoked(...)` loop over a batch of non-null, pairwise-disjoint
intervals none of which overlaps an `ALLOCD` point: no assertion fires, the
batch ranges end up exactly `REVOKED`, all other points keep their states,
and well-formedness is preserved. -/
theorem revokeList_spec :
    ∀ (L : Tree) (t : Tree),
      NonNull t →
      (∀ J ∈ L, J.lo < J.hi) →
      L.Pairwise ivalDisjoint →
      (∀ J ∈ L, ∀ p : Int, J.lo ≤ p → p < J.hi → ALLOCD ∉ statesAt t p) →
      (revokeList t L).1 = none ∧
      (∀ J ∈ L, ∀ p : Int, J.lo ≤ p → p < J.hi →
        statesAt (revokeList t L).2 p = [REVOKED]) ∧
      (∀ p : Int, (∀ J ∈ L, ¬(J.lo ≤ p ∧ p < J.hi)) →
        statesAt (revokeList t L).2 p = statesAt t p) ∧
      NonNull (revokeList t L).2 ∧
      (t.Pairwise ivalDisjoint → (revokeList t L).2.Pairwise ivalDisjoint) := by
  intro L
  induction L with
  | nil =>
    intro t hnn _ _ _
    exact ⟨rfl, fun J hJ => absurd hJ (by simp), fun p _ => rfl, hnn, fun h => h⟩
  | cons J rest ih =>
    intro t hnn hL hpwL hnoA
    have hJm : J ∈ J :: rest := List.mem_cons_self J rest
    have hJnn := hL J hJm
    have hchk := revokedCheck_single_false hnn hJnn (hnoA J hJm)
    have hred : revokeList t (J :: rest) =
        revokeList (revokedCommitOne t J.lo J.hi) rest := by
      show (match revoked t [(J.lo, J.hi)] with
        | (some msg, t1) => (some msg, t1)
        | (none, t1) => revokeList t1 rest) = _
      rw [revoked_single_ok hchk]
    set t1 := revokedCommitOne t J.lo J.hi with ht1
    have hnn1 : NonNull t1 := by
      intro x hx
      rcases List.mem_cons.mp hx with rfl | hx'
      · exact hJnn
      · exact NonNull_chop hnn J.lo J.hi x hx'
    obtain ⟨hrelJ, hpw'⟩ := List.pairwise_cons.mp hpwL
    have hnoA1 : ∀ K ∈ rest, ∀ p : Int, K.lo ≤ p → p < K.hi →
        ALLOCD ∉ statesAt t1 p := by
      intro K hK p hp1 hp2
      by_cases hin : J.lo ≤ p ∧ p < J.hi
      · rw [ht1, statesAt_revokedCommitOne_inside hin.1 hin.2]
        simp
      · rw [ht1, statesAt_revokedCommitOne_outside (by omega) (by omega)]
        exact hnoA K (List.mem_cons_of_mem J hK) p hp1 hp2
    have ihr := ih t1 hnn1 (fun K hK => hL K (List.mem_cons_of_mem J hK)) hpw'
      hnoA1
    obtain ⟨iherr, ihin, ihfr, ihnn, ihpw⟩ := ihr
    rw [hred]
    refine ⟨iherr, ?_, ?_, ihnn, ?_⟩
    · intro K hK p hp1 hp2
      rcases List.mem_cons.mp hK with rfl | hK'
      · by_cases hlater : ∀ K' ∈ rest, ¬(K'.lo ≤ p ∧ p < K'.hi)
        · rw [ihfr p hlater, ht1,
            statesAt_revokedCommitOne_inside hp1 hp2]
        · push_neg at hlater
          obtain ⟨K', hK', h1, h2⟩ := hlater
          exact ihin K' hK' p h1 h2
      · exact ihin K hK' p hp1 hp2
    · intro p hout
      rw [ihfr p (fun K hK => hout K (List.mem_cons_of_mem J hK)), ht1]
      have houtJ := hout J hJm
      exact statesAt_revokedCommitOne_outside (by omega) (by omega) t
    · intro hpwt
      exact ihpw (WF_revokedCommitOne ⟨hnn, hpwt⟩ hJnn).2

theorem exists_of_state_mem {t : Tree} {p : Int} {s : AddrIvalState}
    (h : s ∈ statesAt t p) : ∃ i ∈ t, coversB i p = true ∧ i.state = s := by
  unfold statesAt queryPoint at h
  obtain ⟨i, hi, hs⟩ := List.mem_map.mp h
  obtain ⟨hit, hic⟩ := List.mem_filter.mp hi
  exact ⟨i, hit, hic, hs⟩

/-! ## Claims C1, C4, C5, C6 -/

/-- C5 (confirmed): a sweep whose interval list exceeds the configured
ceiling fails by raising an error (the misspelt `ValuError` raises a
`NameError`, still an abort) and leaves the cumulative swept counter
unchanged. -/
theorem claim_C5_sweep_ceiling (cap swept amount : Nat) (ivals : List AddrIval)
    (h : cap < ivals.length) :
    sweep cap swept amount ivals =
      (some "exceeds the limit for intervals at once", swept) := by
  unfold sweep
  rw [if_pos h]

theorem claim_C5_witness :
    sweep 1 7 100 [⟨0, 1, FREED⟩, ⟨1, 2, FREED⟩] =
      (some "exceeds the limit for intervals at once", 7) :=
  claim_C5_sweep_ceiling 1 7 100 [⟨0, 1, FREED⟩, ⟨1, 2, FREED⟩] (by decide)

/-- C1 counterexample: on a fresh model (`addr_space.size = 0`) the Naive
scenario `allocate(0,100); free(0); allocate(50,150)` leaves the swept
counter at 0 — it does not increase by the 50 bytes of Freed intervals
revoked, contradicting the claim. -/
theorem claim_C1_counterexample :
    naiveScenario.swept = 0 ∧ ¬ naiveScenario.swept = 50 := by decide

/-- C1 (amended): every successful sweep increases the cumulative swept
counter by exactly the `amount` argument — the sampled address-space size
`addr_space.size` passed at every call site — irrespective of the total
size of the intervals being revoked. -/
theorem claim_C1_amended (cap swept amount : Nat) (ivals : List AddrIval)
    (h : ivals.length ≤ cap) :
    sweep cap swept amount ivals = (none, swept + amount) := by
  unfold sweep
  rw [if_neg (by omega)]

theorem claim_C1_witness :
    sweep 10 5 3 [⟨0, 50, FREED⟩] = (none, 8) :=
  claim_C1_amended 10 5 3 [⟨0, 50, FREED⟩] (by decide)

/-- C6 (confirmed): `revoked(*ranges)` aborts (assertion) exactly when some
given range overlaps a still-`ALLOCD` interval, and otherwise every point of
every given range ends up with exactly the state `REVOKED`. -/
theorem claim_C6_revoke_fatal_iff (t : Tree) (bes : List (Int × Int))
    (h : ∀ be ∈ bes, be.1 < be.2) :
    ((revoked t bes).1.isSome = true ↔
      ∃ be ∈ bes, ∃ i ∈ t, i.state = ALLOCD ∧ overlapsB i be.1 be.2 = true) ∧
    ((revoked t bes).1 = none → ∀ be ∈ bes, ∀ p : Int, be.1 ≤ p → p < be.2 →
      statesAt (revoked t bes).2 p = [REVOKED]) := by
  unfold revoked
  by_cases hchk : revokedCheck t bes = true
  · rw [if_pos hchk]
    constructor
    · exact ⟨fun _ => (revokedCheck_iff t bes).mp hchk, fun _ => rfl⟩
    · intro hnone
      exact absurd hnone (by simp)
  · rw [if_neg hchk]
    constructor
    · constructor
      · intro habs
        simp at habs
      · intro hP
        exact absurd ((revokedCheck_iff t bes).mpr hP) hchk
    · intro _
      exact (foldCommit_statesAt bes t h).1

theorem claim_C6_witness :
    statesAt (revoked [⟨0, 10, FREED⟩] [(0, 5)]).2 3 = [REVOKED] :=
  (claim_C6_revoke_fatal_iff [⟨0, 10, FREED⟩] [(0, 5)] (by decide)).2
    (by decide) (0, 5) (by decide) 3 (by decide) (by decide)

/-- C4 counterexample: handling the reuse notification for `[50,150)`, the
Naive revoker revokes the whole overlapping Freed interval `[0,100)` — not
its clipped part `[50,100)`.  Address 10 lies outside the reused range yet
ends up `REVOKED` instead of staying `FREED`. -/
theorem claim_C4_counterexample :
    statesAt naiveScenario.tree 10 = [REVOKED] ∧
      ¬ statesAt naiveScenario.tree 10 = [FREED] := by decide

/-- C4 (amended): the Naive revoker sweeps and revokes exactly the whole
`FREED` intervals currently overlapping the reused range `[b, e)` — not
clipped, so their parts outside the range are revoked too; every point not
covered by such an interval keeps its states, and afterwards no `FREED`
point remains inside the reused range. -/
theorem claim_C4_naive_unclipped (cap amount swept : Nat) (t : Tree)
    (b e : Int) (hwf : WF t)
    (hcap : ((queryRange t b e).filter (fun i => i.state = FREED)).length ≤ cap) :
    (naiveReused cap amount swept t b e).1 = none ∧
    (∀ i ∈ (queryRange t b e).filter (fun i => i.state = FREED),
      ∀ p : Int, i.lo ≤ p → p < i.hi →
        statesAt (naiveReused cap amount swept t b e).2.2 p = [REVOKED]) ∧
    (∀ p : Int,
      (∀ i ∈ (queryRange t b e).filter (fun i => i.state = FREED),
        ¬(i.lo ≤ p ∧ p < i.hi)) →
      statesAt (naiveReused cap amount swept t b e).2.2 p = statesAt t p) ∧
    (∀ p : Int, b ≤ p → p < e →
      FREED ∉ statesAt (naiveReused cap amount swept t b e).2.2 p) := by
  have hsub : List.Sublist ((queryRange t b e).filter
      (fun i => i.state = FREED)) t :=
    List.Sublist.trans (List.filter_sublist _) (List.filter_sublist _)
  have hmem : ∀ i ∈ (queryRange t b e).filter (fun i => i.state = FREED),
      i ∈ t ∧ i.state = FREED ∧ overlapsB i b e = true := by
    intro i hi
    obtain ⟨hiq, hif⟩ := List.mem_filter.mp hi
    obtain ⟨hit, hio⟩ := List.mem_filter.mp hiq
    exact ⟨hit, by simpa using hif, hio⟩
  have hbatch_mem : ∀ p : Int, p ∈ Set.Icc b b → True := fun _ _ => trivial
  by_cases hempty :
      ((queryRange t b e).filter (fun i => i.state = FREED)).isEmpty
  · have hnil : (queryRange t b e).filter (fun i => i.state = FREED) = [] :=
      List.isEmpty_iff.mp hempty
    have hres : naiveReused cap amount swept t b e = (none, swept, t) := by
      unfold naiveReused
      rw [hnil]
      rfl
    rw [hres]
    refine ⟨rfl, ?_, fun p _ => rfl, ?_⟩
    · intro i hi
      rw [hnil] at hi
      cases hi
    · intro p hp1 hp2 hmemF
      obtain ⟨j, hj, hjc, hjs⟩ := exists_of_state_mem hmemF
      rw [coversB_iff] at hjc
      have : j ∈ (queryRange t b e).filter (fun i => i.state = FREED) := by
        apply List.mem_filter.mpr
        refine ⟨List.mem_filter.mpr ⟨hj, ?_⟩, by simp [hjs]⟩
        unfold overlapsB
        simp only [Bool.and_eq_true, decide_eq_true_eq]
        omega
      rw [hnil] at this
      cases this
  · have hnnil : (queryRange t b e).filter (fun i => i.state = FREED) ≠ [] := by
      intro hc
      rw [hc] at hempty
      simp at hempty
    have hLnn : ∀ J ∈ (queryRange t b e).filter (fun i => i.state = FREED),
        J.lo < J.hi := fun J hJ => hwf.1 J (hmem J hJ).1
    have hLpw : ((queryRange t b e).filter
        (fun i => i.state = FREED)).Pairwise ivalDisjoint :=
      hwf.2.sublist hsub
    have hnoA : ∀ J ∈ (queryRange t b e).filter (fun i => i.state = FREED),
        ∀ p : Int, J.lo ≤ p → p < J.hi → ALLOCD ∉ statesAt t p := by
      intro J hJ p hp1 hp2
      obtain ⟨hJt, hJf, _⟩ := hmem J hJ
      rw [statesAt_eq_single hwf hJt (by rw [coversB_iff]; omega), hJf]
      simp
    have hspec := revokeList_spec _ t hwf.1 hLnn hLpw hnoA
    have hres : naiveReused cap amount swept t b e =
        ((revokeList t ((queryRange t b e).filter
            (fun i => i.state = FREED))).1,
          swept + amount,
          (revokeList t ((queryRange t b e).filter
            (fun i => i.state = FREED))).2) := by
      unfold naiveReused
      rw [if_neg (by simpa using hnnil)]
      rw [show sweep cap swept amount ((queryRange t b e).filter
            (fun i => i.state = FREED)) = (none, swept + amount) from by
          unfold sweep
          rw [if_neg (by omega)]]
    rw [hres]
    obtain ⟨herr, hin, hfr, _, _⟩ := hspec
    refine ⟨herr, hin, hfr, ?_⟩
    intro p hp1 hp2 hmemF
    by_cases hcov : ∀ i ∈ (queryRange t b e).filter (fun i => i.state = FREED),
        ¬(i.lo ≤ p ∧ p < i.hi)
    · rw [hfr p hcov] at hmemF
      obtain ⟨j, hj, hjc, hjs⟩ := exists_of_state_mem hmemF
      rw [coversB_iff] at hjc
      have hjb : j ∈ (queryRange t b e).filter (fun i => i.state = FREED) := by
        apply List.mem_filter.mpr
        refine ⟨List.mem_filter.mpr ⟨hj, ?_⟩, by simp [hjs]⟩
        unfold overlapsB
        simp only [Bool.and_eq_true, decide_eq_true_eq]
        omega
      exact hcov j hjb ⟨hjc.1, hjc.2⟩
    · push_neg at hcov
      obtain ⟨i, hi, h1, h2⟩ := hcov
      rw [hin i hi p h1 h2] at hmemF
      simp at hmemF

theorem claim_C4_witness :
    statesAt (naiveReused 8 0 0 [⟨0, 100, FREED⟩] 50 150).2.2 10 = [REVOKED] :=
  (claim_C4_naive_unclipped 8 0 0 [⟨0, 100, FREED⟩] 50 150 (by decide)
      (by decide)).2.1 ⟨0, 100, FREED⟩ (by decide) 10 (by decide) (by decide)

/-! ## `AccountingAddrSpaceModel`: the fast accounting model

Two running totals plus an address-to-size dictionary keyed by allocation
start (`self._va2sz`); Python dict get/set/del semantics embedded over an
association list with at most one entry per key. -/

def dictGet (m : List (Int × Int)) (k : Int) : Option Int :=
  (m.find? (fun kv => decide (kv.1 = k))).map (fun kv => kv.2)

def dictSet (m : List (Int × Int)) (k v : Int) : List (Int × Int) :=
  (k, v) :: m.filter (fun kv => decide (kv.1 ≠ k))

def dictDel (m : List (Int × Int)) (k : Int) : List (Int × Int) :=
  m.filter (fun kv => decide (kv.1 ≠ k))

structure AccountingAddrSpaceModel where
  mapd_size : Int
  allocd_size : Int
  va2sz : List (Int × Int)
deriving DecidableEq, Repr

namespace AccountingAddrSpaceModel

def mapd (m : AccountingAddrSpaceModel) (b e : Int) : AccountingAddrSpaceModel :=
  { m with mapd_size := m.mapd_size + (e - b) }

def unmapd (m : AccountingAddrSpaceModel) (b e : Int) : AccountingAddrSpaceModel :=
  { m with mapd_size := m.mapd_size - (e - b) }

def allocd (m : AccountingAddrSpaceModel) (b e : Int) : AccountingAddrSpaceModel :=
  { m with va2sz := dictSet m.va2sz b (e - b),
           allocd_size := m.allocd_size + (e - b) }

/-- `AccountingAddrSpaceModel.freed(begin)`: only if `begin` is a known
allocation start is its size subtracted and its entry dropped; otherwise
nothing happens. -/
def freed (m : AccountingAddrSpaceModel) (b : Int) : AccountingAddrSpaceModel :=
  match dictGet m.va2sz b with
  | some sz => { m with allocd_size := m.allocd_size - sz,
                        va2sz := dictDel m.va2sz b }
  | none => m

def reallocd (m : AccountingAddrSpaceModel) (ob nb ne : Int) :
    AccountingAddrSpaceModel :=
  (m.freed ob).allocd nb ne

end AccountingAddrSpaceModel

theorem dictGet_del (m : List (Int × Int)) (k : Int) :
    dictGet (dictDel m k) k = none := by
  unfold dictGet dictDel
  rw [List.find?_eq_none.mpr]
  · rfl
  · intro kv hkv
    have := @List.of_mem_filter _ (fun kv => decide (kv.1 ≠ k)) kv m hkv
    simp at this ⊢
    exact this

/-- C10 (confirmed): in the fast accounting model a `freed(begin)` with no
allocation recorded at `begin` is a silent no-op (both totals and the table
are unchanged), so a double free of `begin` subtracts the allocation's size
at most once. -/
theorem claim_C10_accounting_free_noop (m : AccountingAddrSpaceModel) (b : Int) :
    (dictGet m.va2sz b = none → m.freed b = m) ∧
    (m.freed b).freed b = m.freed b := by
  constructor
  · intro h
    unfold AccountingAddrSpaceModel.freed
    rw [h]
  · cases hg : dictGet m.va2sz b with
    | none =>
      have h1 : m.freed b = m := by
        unfold AccountingAddrSpaceModel.freed
        rw [hg]
      rw [h1]
      exact h1
    | some sz =>
      have h1 : m.freed b = AccountingAddrSpaceModel.mk m.mapd_size
          (m.allocd_size - sz) (dictDel m.va2sz b) := by
        unfold AccountingAddrSpaceModel.freed
        rw [hg]
      rw [h1]
      unfold AccountingAddrSpaceModel.freed
      rw [show dictGet (dictDel m.va2sz b) b = none from dictGet_del _ _]

theorem claim_C10_witness :
    AccountingAddrSpaceModel.freed ⟨0, 0, []⟩ 5 = ⟨0, 0, []⟩ :=
  (claim_C10_accounting_free_noop ⟨0, 0, []⟩ 5).1 rfl

/-! ## Claim C2: the pre-commit `reused` publish in `allocd` -/

/-- C2 (confirmed): whenever `allocate(b, e)` overlaps at least one `FREED`
interval, the `reused` notification is published carrying the model's
pre-commit state — the tree exactly as it was before the call, so every
overlapping Freed interval is still present — the subscriber runs on that
state, and only afterwards is `[b, e)` committed with exactly the state
`ALLOCD` at every point. -/
theorem claim_C2_reused_pre_commit {σ : Type} (t : Tree) (b e : Int)
    (subf : Tree → Int → Int → Option String × σ × Tree) (s0 : σ)
    (hov : (queryRange t b e).filter (fun i => i.state = FREED) ≠ [])
    (hsub : (subf t b e).1 = none) :
    (allocd t b e subf s0).published = some (t, b, e) ∧
    (∀ i ∈ (queryRange t b e).filter (fun i => i.state = FREED), i ∈ t) ∧
    (∀ p : Int, b ≤ p → p < e →
      statesAt (allocd t b e subf s0).tree p = [ALLOCD]) := by
  rcases hsf : subf t b e with ⟨er, s1, t1⟩
  have her : er = none := by
    rw [hsf] at hsub
    exact hsub
  subst her
  have hovne : queryRange t b e ≠ [] := by
    intro hc
    rw [hc] at hov
    exact hov rfl
  have hfe : ((queryRange t b e).filter
      (fun i => i.state = FREED)).isEmpty = false := by
    cases h : ((queryRange t b e).filter (fun i => i.state = FREED)).isEmpty with
    | false => rfl
    | true => exact absurd (List.isEmpty_iff.mp h) hov
  have hoe : (queryRange t b e).isEmpty = false := by
    cases h : (queryRange t b e).isEmpty with
    | false => rfl
    | true => exact absurd (List.isEmpty_iff.mp h) hovne
  have hred : allocd t b e subf s0 =
      ⟨some (t, b, e), none, s1, ⟨b, e, ALLOCD⟩ :: chop t1 b e⟩ := by
    unfold allocd
    simp only [hsf, hfe, hoe]
    rfl
  rw [hred]
  refine ⟨rfl, ?_, ?_⟩
  · intro i hi
    exact List.mem_of_mem_filter (List.mem_of_mem_filter hi)
  · intro p hp1 hp2
    exact statesAt_overwrite_inside hp1 hp2 t1 ALLOCD

theorem claim_C2_witness :
    (allocd [⟨0, 10, FREED⟩] 0 10 (fun t _ _ => (none, (0 : Nat), t))
        0).published = some ([⟨0, 10, FREED⟩], 0, 10) ∧
    statesAt (allocd [⟨0, 10, FREED⟩] 0 10 (fun t _ _ => (none, (0 : Nat), t))
        0).tree 5 = [ALLOCD] :=
  ⟨(claim_C2_reused_pre_commit [⟨0, 10, FREED⟩] 0 10
      (fun t _ _ => (none, (0 : Nat), t)) 0 (by decide) rfl).1,
    (claim_C2_reused_pre_commit [⟨0, 10, FREED⟩] 0 10
      (fun t _ _ => (none, (0 : Nat), t)) 0 (by decide) rfl).2.2 5
      (by decide) (by decide)⟩

/-! ## Properties of the coalescing walks -/

theorem no_cover_of_query_none {t : Tree} {p : Int}
    (h : intervaltree_query_checked t p = none) :
    ∀ i ∈ t, ¬(i.lo ≤ p ∧ p < i.hi) := by
  intro i hi hcov
  unfold intervaltree_query_checked at h
  rw [List.head?_eq_none_iff] at h
  have : i ∈ queryPoint t p :=
    List.mem_filter.mpr ⟨hi, by rw [coversB_iff]; exact hcov⟩
  rw [h] at this
  cases this

theorem walkLeft_le (t : Tree) (coal : List AddrIvalState) (c : AddrIval) :
    walkLeft t coal c ≤ c.lo := by
  induction c using walkLeft.induct (t := t) (s := coal) with
  | case1 c h => rw [walkLeft, h]
  | case2 c i h hmem ih =>
    rw [walkLeft, h]
    show (if i.state ∈ coal then walkLeft t coal i else c.lo) ≤ c.lo
    rw [if_pos hmem]
    obtain ⟨_, hc⟩ := mem_cover_of_query_checked h
    rw [coversB_iff] at hc
    omega
  | case3 c i h hmem =>
    rw [walkLeft, h]
    show (if i.state ∈ coal then walkLeft t coal i else c.lo) ≤ c.lo
    rw [if_neg hmem]

theorem walkRight_ge (t : Tree) (coal : List AddrIvalState) (c : AddrIval) :
    c.hi ≤ walkRight t coal c := by
  induction c using walkRight.induct (t := t) (s := coal) with
  | case1 c h => rw [walkRight, h]
  | case2 c i h hmem ih =>
    rw [walkRight, h]
    show c.hi ≤ (if i.state ∈ coal then walkRight t coal i else c.hi)
    rw [if_pos hmem]
    obtain ⟨_, hc⟩ := mem_cover_of_query_checked h
    rw [coversB_iff] at hc
    omega
  | case3 c i h hmem =>
    rw [walkRight, h]
    show c.hi ≤ (if i.state ∈ coal then walkRight t coal i else c.hi)
    rw [if_neg hmem]

theorem walkLeft_cov (t : Tree) (coal : List AddrIvalState) (c : AddrIval) :
    ∀ p : Int, walkLeft t coal c ≤ p → p < c.lo →
      ∃ i ∈ t, coversB i p = true ∧ i.state ∈ coal := by
  induction c using walkLeft.induct (t := t) (s := coal) with
  | case1 c h =>
    rw [walkLeft, h]
    intro p h1 h2
    have h1' : c.lo ≤ p := h1
    omega
  | case2 c i h hmem ih =>
    rw [walkLeft, h]
    show ∀ p : Int, (if i.state ∈ coal then walkLeft t coal i else c.lo) ≤ p →
      p < c.lo → _
    rw [if_pos hmem]
    intro p h1 h2
    obtain ⟨him, hc⟩ := mem_cover_of_query_checked h
    rw [coversB_iff] at hc
    by_cases hpi : p < i.lo
    · exact ih p h1 hpi
    · exact ⟨i, him, by rw [coversB_iff]; omega, hmem⟩
  | case3 c i h hmem =>
    rw [walkLeft, h]
    show ∀ p : Int, (if i.state ∈ coal then walkLeft t coal i else c.lo) ≤ p →
      p < c.lo → _
    rw [if_neg hmem]
    intro p h1 h2
    omega

theorem walkRight_cov (t : Tree) (coal : List AddrIvalState) (c : AddrIval) :
    ∀ p : Int, c.hi ≤ p → p < walkRight t coal c →
      ∃ i ∈ t, coversB i p = true ∧ i.state ∈ coal := by
  induction c using walkRight.induct (t := t) (s := coal) with
  | case1 c h =>
    rw [walkRight, h]
    intro p h1 h2
    have h2' : p < c.hi := h2
    omega
  | case2 c i h hmem ih =>
    rw [walkRight, h]
    show ∀ p : Int, c.hi ≤ p →
      p < (if i.state ∈ coal then walkRight t coal i else c.hi) → _
    rw [if_pos hmem]
    intro p h1 h2
    obtain ⟨him, hc⟩ := mem_cover_of_query_checked h
    rw [coversB_iff] at hc
    by_cases hpi : i.hi ≤ p
    · exact ih p hpi h2
    · exact ⟨i, him, by rw [coversB_iff]; omega, hmem⟩
  | case3 c i h hmem =>
    rw [walkRight, h]
    show ∀ p : Int, c.hi ≤ p →
      p < (if i.state ∈ coal then walkRight t coal i else c.hi) → _
    rw [if_neg hmem]
    intro p h1 h2
    omega

theorem walkLeft_max {t : Tree} (hwf : WF t) (coal : List AddrIvalState)
    (c : AddrIval) :
    ¬ ∃ i ∈ t, coversB i (walkLeft t coal c - 1) = true ∧ i.state ∈ coal := by
  induction c using walkLeft.induct (t := t) (s := coal) with
  | case1 c h =>
    rw [walkLeft, h]
    rintro ⟨j, hj, hjc, _⟩
    rw [coversB_iff] at hjc
    exact no_cover_of_query_none h j hj hjc
  | case2 c i h hmem ih =>
    rw [walkLeft, h]
    show ¬ ∃ j ∈ t, coversB j
      ((if i.state ∈ coal then walkLeft t coal i else c.lo) - 1) = true ∧
      j.state ∈ coal
    rw [if_pos hmem]
    exact ih
  | case3 c i h hmem =>
    rw [walkLeft, h]
    show ¬ ∃ j ∈ t, coversB j
      ((if i.state ∈ coal then walkLeft t coal i else c.lo) - 1) = true ∧
      j.state ∈ coal
    rw [if_neg hmem]
    rintro ⟨j, hj, hjc, hjs⟩
    obtain ⟨him, hic⟩ := mem_cover_of_query_checked h
    have := queryPoint_eq_single hwf him hic
    have hjq : j ∈ queryPoint t (c.lo - 1) := List.mem_filter.mpr ⟨hj, hjc⟩
    rw [this] at hjq
    simp at hjq
    subst hjq
    exact hmem hjs

theorem walkRight_max {t : Tree} (hwf : WF t) (coal : List AddrIvalState)
    (c : AddrIval) :
    ¬ ∃ i ∈ t, coversB i (walkRight t coal c) = true ∧ i.state ∈ coal := by
  induction c using walkRight.induct (t := t) (s := coal) with
  | case1 c h =>
    rw [walkRight, h]
    rintro ⟨j, hj, hjc, _⟩
    rw [coversB_iff] at hjc
    exact no_cover_of_query_none h j hj hjc
  | case2 c i h hmem ih =>
    rw [walkRight, h]
    show ¬ ∃ j ∈ t, coversB j
      (if i.state ∈ coal then walkRight t coal i else c.hi) = true ∧
      j.state ∈ coal
    rw [if_pos hmem]
    exact ih
  | case3 c i h hmem =>
    rw [walkRight, h]
    show ¬ ∃ j ∈ t, coversB j
      (if i.state ∈ coal then walkRight t coal i else c.hi) = true ∧
      j.state ∈ coal
    rw [if_neg hmem]
    rintro ⟨j, hj, hjc, hjs⟩
    obtain ⟨him, hic⟩ := mem_cover_of_query_checked h
    have := queryPoint_eq_single hwf him hic
    have hjq : j ∈ queryPoint t c.hi := List.mem_filter.mpr ⟨hj, hjc⟩
    rw [this] at hjq
    simp at hjq
    subst hjq
    exact hmem hjs

/-- Full specification of `intervaltree_query_coalesced` on a well-formed
tree: the returned interval is the maximal run of touching intervals around
the interval found at the queried point whose states lie in the coalesce
set. -/
theorem query_coalesced_spec {t : Tree} (hwf : WF t) {p : Int} {J : AddrIval}
    {coalW : List AddrIvalState}
    (h : intervaltree_query_coalesced t p coalW = some J) :
    ∃ ival, intervaltree_query_checked t p = some ival ∧ ival ∈ t ∧
      J.lo ≤ ival.lo ∧ ival.hi ≤ J.hi ∧ J.state = ival.state ∧
      (∀ q : Int, J.lo ≤ q → q < J.hi →
        ∃ i ∈ t, coversB i q = true ∧ i.state ∈ ival.state :: coalW) ∧
      (¬ ∃ i ∈ t, coversB i (J.lo - 1) = true ∧
        i.state ∈ ival.state :: coalW) ∧
      (¬ ∃ i ∈ t, coversB i J.hi = true ∧ i.state ∈ ival.state :: coalW) := by
  unfold intervaltree_query_coalesced at h
  cases hq : intervaltree_query_checked t p with
  | none => rw [hq] at h; cases h
  | some ival =>
    rw [hq] at h
    simp only [Option.some.injEq] at h
    subst h
    obtain ⟨him, hic⟩ := mem_cover_of_query_checked hq
    refine ⟨ival, rfl, him, walkLeft_le t _ ival, walkRight_ge t _ ival, rfl,
      ?_, walkLeft_max hwf _ ival, walkRight_max hwf _ ival⟩
    intro q h1 h2
    have hq1 : (walkLeft t (ival.state :: coalW) ival ≤ q) := h1
    have hq2 : (q < walkRight t (ival.state :: coalW) ival) := h2
    by_cases hlt : q < ival.lo
    · exact walkLeft_cov t _ ival q hq1 hlt
    · by_cases hge : ival.hi ≤ q
      · exact walkRight_cov t _ ival q hge hq2
      · exact ⟨ival, him, by rw [coversB_iff]; omega,
          List.mem_cons_self _ _⟩

/-- Every interval emitted by the compacting batch loop comes from a
coalesced query at one of the seeds. -/
theorem compactLoop_mem {t : Tree} :
    ∀ l : Tree, ∀ J ∈ compactLoop t l,
      ∃ seed ∈ l, intervaltree_query_coalesced t seed.lo [REVOKED] = some J := by
  intro l
  induction l using compactLoop.induct (t := t) with
  | case1 =>
    intro J hJ
    rw [compactLoop] at hJ
    cases hJ
  | case2 seed rest hq ih =>
    intro J hJ
    rw [compactLoop, hq] at hJ
    obtain ⟨seed', hs', hqs'⟩ := ih J hJ
    exact ⟨seed', List.mem_cons_of_mem seed hs', hqs'⟩
  | case3 seed rest ival hq ih =>
    intro J hJ
    rw [compactLoop, hq] at hJ
    rcases List.mem_cons.mp hJ with rfl | hJ'
    · exact ⟨seed, List.mem_cons_self seed rest, hq⟩
    · obtain ⟨seed', hs', hqs'⟩ := ih J hJ'
      refine ⟨seed', List.mem_cons_of_mem seed ?_, hqs'⟩
      exact (List.dropWhile_suffix _).subset hs'

/-- On a well-formed tree every compacting batch interval is non-null. -/
theorem compactBatch_nonnull {t : Tree} (hwf : WF t) :
    ∀ J ∈ compactBatch t, J.lo < J.hi := by
  intro J hJ
  obtain ⟨seed, _, hq⟩ := compactLoop_mem _ J hJ
  obtain ⟨ival, _, him, hb1, hb2, _, _, _, _⟩ := query_coalesced_spec hwf hq
  have := hwf.1 ival him
  omega

/-! ## Reduction lemmas for the revoker handlers -/

theorem naiveReused_empty (cap amount swept : Nat) (t : Tree) (b e : Int)
    (hemp : ((queryRange t b e).filter (fun i => i.state = FREED)).isEmpty
      = true) :
    naiveReused cap amount swept t b e = (none, swept, t) := by
  unfold naiveReused
  simp only [hemp]
  rfl

theorem naiveReused_over (cap amount swept : Nat) (t : Tree) (b e : Int)
    (hemp : ((queryRange t b e).filter (fun i => i.state = FREED)).isEmpty
      = false)
    (hover : cap <
      ((queryRange t b e).filter (fun i => i.state = FREED)).length) :
    naiveReused cap amount swept t b e =
      (some "exceeds the limit for intervals at once", swept, t) := by
  unfold naiveReused sweep
  simp only [hemp, if_pos hover]
  rfl

theorem naiveReused_ok (cap amount swept : Nat) (t : Tree) (b e : Int)
    (hemp : ((queryRange t b e).filter (fun i => i.state = FREED)).isEmpty
      = false)
    (hle : ((queryRange t b e).filter (fun i => i.state = FREED)).length
      ≤ cap) :
    naiveReused cap amount swept t b e =
      ((revokeList t ((queryRange t b e).filter
          (fun i => i.state = FREED))).1,
        swept + amount,
        (revokeList t ((queryRange t b e).filter
          (fun i => i.state = FREED))).2) := by
  unfold naiveReused sweep
  simp only [hemp, if_neg (by omega :
    ¬ cap < ((queryRange t b e).filter (fun i => i.state = FREED)).length)]
  rfl

theorem compactingReused_empty (cap amount swept : Nat) (t : Tree) (b e : Int)
    (hemp : (compactBatch t).isEmpty = true) :
    compactingReused cap amount swept t b e = (none, swept, t) := by
  unfold compactingReused
  simp only [hemp]
  rfl

theorem compactingReused_over (cap amount swept : Nat) (t : Tree) (b e : Int)
    (hemp : (compactBatch t).isEmpty = false)
    (hover : cap < (compactBatch t).length) :
    compactingReused cap amount swept t b e =
      (some "exceeds the limit for intervals at once", swept, t) := by
  unfold compactingReused sweep
  simp only [hemp, if_pos hover]
  rfl

theorem compactingReused_ok (cap amount swept : Nat) (t : Tree) (b e : Int)
    (hemp : (compactBatch t).isEmpty = false)
    (hle : (compactBatch t).length ≤ cap) :
    compactingReused cap amount swept t b e =
      ((revokeList t (compactBatch t)).1,
        swept + amount,
        (revokeList t (compactBatch t)).2) := by
  unfold compactingReused sweep
  simp only [hemp, if_neg (by omega : ¬ cap < (compactBatch t).length)]
  rfl

/-! ## Well-formedness preservation of every operation -/

theorem revokeList_WF :
    ∀ (L : Tree) (t : Tree), WF t → (∀ J ∈ L, J.lo < J.hi) →
      WF (revokeList t L).2 := by
  intro L
  induction L with
  | nil => intro t hwf _; exact hwf
  | cons J rest ih =>
    intro t hwf hL
    show WF (match revoked t [(J.lo, J.hi)] with
      | (some msg, t1) => (some msg, t1)
      | (none, t1) => revokeList t1 rest).2
    unfold revoked
    by_cases hchk : revokedCheck t [(J.lo, J.hi)] = true
    · rw [if_pos hchk]
      exact hwf
    · rw [if_neg hchk]
      show WF (revokeList (revokedCommitOne t J.lo J.hi) rest).2
      exact ih _ (WF_revokedCommitOne hwf (hL J (List.mem_cons_self J rest)))
        (fun K hK => hL K (List.mem_cons_of_mem J hK))

theorem WF_naiveReused (cap amount swept : Nat) {t : Tree} (hwf : WF t)
    (b e : Int) : WF (naiveReused cap amount swept t b e).2.2 := by
  cases hemp : ((queryRange t b e).filter (fun i => i.state = FREED)).isEmpty
    with
  | true => rw [naiveReused_empty cap amount swept t b e hemp]; exact hwf
  | false =>
    have hLnn : ∀ J ∈ (queryRange t b e).filter (fun i => i.state = FREED),
        J.lo < J.hi := by
      intro J hJ
      exact hwf.1 J (List.mem_of_mem_filter (List.mem_of_mem_filter hJ))
    by_cases hover : cap <
        ((queryRange t b e).filter (fun i => i.state = FREED)).length
    · rw [naiveReused_over cap amount swept t b e hemp hover]
      exact hwf
    · rw [naiveReused_ok cap amount swept t b e hemp (by omega)]
      exact revokeList_WF _ t hwf hLnn

theorem WF_compactingReused (cap amount swept : Nat) {t : Tree} (hwf : WF t)
    (b e : Int) : WF (compactingReused cap amount swept t b e).2.2 := by
  cases hemp : (compactBatch t).isEmpty with
  | true => rw [compactingReused_empty cap amount swept t b e hemp]; exact hwf
  | false =>
    by_cases hover : cap < (compactBatch t).length
    · rw [compactingReused_over cap amount swept t b e hemp hover]
      exact hwf
    · rw [compactingReused_ok cap amount swept t b e hemp (by omega)]
      exact revokeList_WF _ t hwf (compactBatch_nonnull hwf)

theorem WF_subFor (strat : Strategy) (cap amount swept : Nat) {t : Tree}
    (hwf : WF t) (b e : Int) :
    WF (subFor strat cap amount swept t b e).2.2 := by
  cases strat with
  | naive => exact WF_naiveReused cap amount swept hwf b e
  | compacting => exact WF_compactingReused cap amount swept hwf b e
  | nosub => exact hwf

theorem allocd_no_freed {σ : Type} (t : Tree) (b e : Int)
    (subf : Tree → Int → Int → Option String × σ × Tree) (s0 : σ)
    (hf : ((queryRange t b e).filter (fun i => i.state = FREED)).isEmpty
      = true) :
    allocd t b e subf s0 = ⟨none, none, s0, ⟨b, e, ALLOCD⟩ ::
      (if (queryRange t b e).isEmpty = true then t else chop t b e)⟩ := by
  unfold allocd
  simp only [hf]
  rfl

theorem allocd_freed_err {σ : Type} (t : Tree) (b e : Int)
    (subf : Tree → Int → Int → Option String × σ × Tree) (s0 : σ)
    {msg : String} {s1 : σ} {t1 : Tree}
    (hf : ((queryRange t b e).filter (fun i => i.state = FREED)).isEmpty
      = false)
    (hsf : subf t b e = (some msg, s1, t1)) :
    allocd t b e subf s0 = ⟨some (t, b, e), some msg, s1, t1⟩ := by
  unfold allocd
  simp only [hf, hsf]
  rfl

theorem allocd_freed_ok {σ : Type} (t : Tree) (b e : Int)
    (subf : Tree → Int → Int → Option String × σ × Tree) (s0 : σ)
    {s1 : σ} {t1 : Tree}
    (hf : ((queryRange t b e).filter (fun i => i.state = FREED)).isEmpty
      = false)
    (hsf : subf t b e = (none, s1, t1)) :
    allocd t b e subf s0 = ⟨some (t, b, e), none, s1, ⟨b, e, ALLOCD⟩ ::
      (if (queryRange t b e).isEmpty = true then t1 else chop t1 b e)⟩ := by
  unfold allocd
  simp only [hf, hsf]
  rfl

theorem queryRange_isEmpty_false_of_freed {t : Tree} {b e : Int}
    (hf : ((queryRange t b e).filter (fun i => i.state = FREED)).isEmpty
      = false) : (queryRange t b e).isEmpty = false := by
  cases ho : (queryRange t b e).isEmpty with
  | false => rfl
  | true =>
    have hnil := List.isEmpty_iff.mp ho
    rw [hnil] at hf
    simp at hf

theorem WF_allocd {σ : Type} {t : Tree} (hwf : WF t) {b e : Int} (hbe : b < e)
    (subf : Tree → Int → Int → Option String × σ × Tree) (s0 : σ)
    (hsub : WF (subf t b e).2.2) :
    WF (allocd t b e subf s0).tree := by
  cases hf : ((queryRange t b e).filter (fun i => i.state = FREED)).isEmpty
    with
  | true =>
    rw [allocd_no_freed t b e subf s0 hf]
    show WF (⟨b, e, ALLOCD⟩ ::
      (if (queryRange t b e).isEmpty = true then t else chop t b e))
    cases ho : (queryRange t b e).isEmpty with
    | true =>
      rw [if_pos rfl]
      have hqr := List.isEmpty_iff.mp ho
      constructor
      · intro x hx
        rcases List.mem_cons.mp hx with rfl | hx'
        · exact hbe
        · exact hwf.1 x hx'
      · rw [List.pairwise_cons]
        refine ⟨?_, hwf.2⟩
        intro j hj
        have hnov : ¬ (overlapsB j b e = true) := by
          intro hov
          have : j ∈ queryRange t b e := List.mem_filter.mpr ⟨hj, hov⟩
          rw [hqr] at this
          cases this
        unfold overlapsB at hnov
        simp only [Bool.and_eq_true, decide_eq_true_eq] at hnov
        show e ≤ j.lo ∨ j.hi ≤ b
        omega
    | false =>
      rw [if_neg (by simp [ho])]
      exact WF_overwrite hwf hbe ALLOCD
  | false =>
    rcases hsf : subf t b e with ⟨er, s1, t1⟩
    have hsub' : WF t1 := by rw [hsf] at hsub; exact hsub
    cases er with
    | some msg =>
      rw [allocd_freed_err t b e subf s0 hf hsf]
      exact hsub'
    | none =>
      rw [allocd_freed_ok t b e subf s0 hf hsf]
      have ho := queryRange_isEmpty_false_of_freed hf
      show WF (⟨b, e, ALLOCD⟩ ::
        (if (queryRange t b e).isEmpty = true then t1 else chop t1 b e))
      rw [if_neg (by simp [ho])]
      exact WF_overwrite hsub' hbe ALLOCD

theorem pairwise_symm_erase {l : Tree} (h : l.Pairwise ivalDisjoint)
    {x : AddrIval} (hx : x ∈ l) : ∀ y ∈ l.erase x, ivalDisjoint x y := by
  induction l with
  | nil => cases hx
  | cons a l ih =>
    obtain ⟨hrel, hpw⟩ := List.pairwise_cons.mp h
    by_cases hax : a = x
    · subst hax
      rw [List.erase_cons_head]
      exact hrel
    · rw [List.erase_cons, if_neg (by simp [hax])]
      intro y hy
      rcases List.mem_cons.mp hy with rfl | hy'
      · have hxl : x ∈ l := by
          rcases List.mem_cons.mp hx with rfl | hxl
          · exact absurd rfl hax
          · exact hxl
        have := hrel x hxl
        unfold ivalDisjoint at this ⊢
        omega
      · have hxl : x ∈ l := by
          rcases List.mem_cons.mp hx with rfl | hxl
          · exact absurd rfl hax
          · exact hxl
        exact ih hpw hxl y hy'

theorem WF_freed {t : Tree} (hwf : WF t) (b : Int) : WF (freed t b) := by
  unfold freed
  cases hq : intervaltree_query_checked t b with
  | none =>
    show WF (⟨b, b + 1, FREED⟩ :: t)
    constructor
    · intro x hx
      rcases List.mem_cons.mp hx with rfl | hx'
      · show b < b + 1
        omega
      · exact hwf.1 x hx'
    · rw [List.pairwise_cons]
      refine ⟨?_, hwf.2⟩
      intro j hj
      have hnc := no_cover_of_query_none hq j hj
      show b + 1 ≤ j.lo ∨ j.hi ≤ b
      omega
  | some i =>
    obtain ⟨him, hic⟩ := mem_cover_of_query_checked hq
    show WF (⟨i.lo, i.hi, FREED⟩ :: t.erase i)
    constructor
    · intro x hx
      rcases List.mem_cons.mp hx with rfl | hx'
      · exact hwf.1 i him
      · exact hwf.1 x ((List.erase_sublist i t).subset hx')
    · rw [List.pairwise_cons]
      refine ⟨?_, hwf.2.sublist (List.erase_sublist i t)⟩
      intro j hj
      exact pairwise_symm_erase hwf.2 him j hj

theorem WF_foldCommit :
    ∀ (bes : List (Int × Int)) (t : Tree), WF t →
      (∀ be ∈ bes, be.1 < be.2) →
      WF (bes.foldl (fun acc be => revokedCommitOne acc be.1 be.2) t) := by
  intro bes
  induction bes with
  | nil => intro t hwf _; exact hwf
  | cons be rest ih =>
    intro t hwf hbes
    rw [List.foldl_cons]
    exact ih _ (WF_revokedCommitOne hwf (hbes be (List.mem_cons_self be rest)))
      (fun b hb => hbes b (List.mem_cons_of_mem be hb))

theorem WF_revoked {t : Tree} (hwf : WF t) (bes : List (Int × Int))
    (hbes : ∀ be ∈ bes, be.1 < be.2) : WF (revoked t bes).2 := by
  unfold revoked
  by_cases hchk : revokedCheck t bes = true
  · rw [if_pos hchk]
    exact hwf
  · rw [if_neg hchk]
    exact WF_foldCommit bes t hwf hbes

theorem WF_stepOp (strat : Strategy) (cap amount : Nat) {s : Sys}
    (hwf : WF s.tree) {op : TraceOp} (hop : opWF op) :
    WF (stepOp strat cap amount s op).tree := by
  cases op with
  | alloc b e =>
    exact WF_allocd hwf hop (subFor strat cap amount s.swept) s.swept
      (WF_subFor strat cap amount s.swept hwf b e)
  | free b => exact WF_freed hwf b
  | revoke bes => exact WF_revoked hwf bes hop

theorem runTrace_WF (strat : Strategy) (cap amount : Nat) :
    ∀ (ops : List TraceOp) (s : Sys), WF s.tree →
      (∀ op ∈ ops, opWF op) →
      WF (runTrace strat cap amount ops s).tree := by
  intro ops
  induction ops with
  | nil => intro s hwf _; exact hwf
  | cons op rest ih =>
    intro s hwf hops
    unfold runTrace
    rw [List.foldl_cons]
    show WF (runTrace strat cap amount rest
      (if s.err.isSome then s else stepOp strat cap amount s op)).tree
    by_cases herr : s.err.isSome
    · rw [if_pos herr]
      exact ih s hwf (fun o ho => hops o (List.mem_cons_of_mem op ho))
    · rw [if_neg herr]
      exact ih _ (WF_stepOp strat cap amount hwf
          (hops op (List.mem_cons_self op rest)))
        (fun o ho => hops o (List.mem_cons_of_mem op ho))

/-- C7 (confirmed): replaying any well-formed sequence of allocate / free /
revoke events against the allocator model — with any of the revoker
strategies subscribed — keeps the stored intervals pairwise disjoint: a
point query at any address finds at most one covering interval. -/
theorem claim_C7_point_query_disjoint (strat : Strategy) (cap amount : Nat)
    (ops : List TraceOp) (p : Int) (hops : ∀ op ∈ ops, opWF op) :
    (queryPoint (runTrace strat cap amount ops initSys).tree p).length ≤ 1 :=
  queryPoint_length_le_one
    (runTrace_WF strat cap amount ops initSys
      ⟨fun i h => absurd h (List.not_mem_nil i), List.Pairwise.nil⟩ hops) p

theorem claim_C7_witness :
    (queryPoint (runTrace .compacting (2 ^ 64) 0
      [.alloc 0 100, .free 0, .alloc 50 150] initSys).tree 10).length ≤ 1 :=
  claim_C7_point_query_disjoint .compacting (2 ^ 64) 0
    [.alloc 0 100, .free 0, .alloc 50 150] 10 (by decide)

/-! ## Claim C3: the compacting batch -/

/-- Point `q` is covered by a `FREED` or `REVOKED` interval of the tree. -/
def FRcovP (t : Tree) (q : Int) : Prop :=
  ∃ i ∈ t, coversB i q = true ∧ (i.state = FREED ∨ i.state = REVOKED)

theorem lexLe_iff (i j : AddrIval) :
    lexLe i j = true ↔ (i.lo < j.lo ∨ (i.lo = j.lo ∧ i.hi ≤ j.hi)) := by
  unfold lexLe
  simp

theorem lexLe_total {i j : AddrIval} (h : ¬ lexLe i j = true) :
    lexLe j i = true := by
  rw [lexLe_iff] at h ⊢
  omega

theorem lexLe_trans {i j k : AddrIval} (h1 : lexLe i j = true)
    (h2 : lexLe j k = true) : lexLe i k = true := by
  rw [lexLe_iff] at h1 h2 ⊢
  omega

theorem mem_insertAsc {i x : AddrIval} :
    ∀ {l : Tree}, x ∈ insertAsc i l ↔ (x = i ∨ x ∈ l) := by
  intro l
  induction l with
  | nil => simp [insertAsc]
  | cons j t ih =>
    unfold insertAsc
    by_cases hle : lexLe i j = true
    · rw [if_pos hle]
      simp
    · rw [if_neg hle]
      simp only [List.mem_cons, ih]
      tauto

theorem mem_sortAsc {x : AddrIval} :
    ∀ {l : Tree}, x ∈ sortAsc l ↔ x ∈ l := by
  intro l
  induction l with
  | nil => simp [sortAsc]
  | cons j t ih =>
    show x ∈ insertAsc j (sortAsc t) ↔ _
    rw [mem_insertAsc]
    simp only [List.mem_cons, ih]

theorem pairwise_insertAsc {i : AddrIval} :
    ∀ {l : Tree}, l.Pairwise (fun a b => lexLe a b = true) →
      (insertAsc i l).Pairwise (fun a b => lexLe a b = true) := by
  intro l
  induction l with
  | nil => intro _; simp [insertAsc]
  | cons j t ih =>
    intro h
    obtain ⟨hrel, hpw⟩ := List.pairwise_cons.mp h
    unfold insertAsc
    by_cases hle : lexLe i j = true
    · rw [if_pos hle]
      rw [List.pairwise_cons]
      refine ⟨?_, h⟩
      intro y hy
      rcases List.mem_cons.mp hy with rfl | hy'
      · exact hle
      · exact lexLe_trans hle (hrel y hy')
    · rw [if_neg hle]
      rw [List.pairwise_cons]
      constructor
      · intro y hy
        rcases mem_insertAsc.mp hy with rfl | hy'
        · exact lexLe_total hle
        · exact hrel y hy'
      · exact ih hpw

theorem pairwise_sortAsc (l : Tree) :
    (sortAsc l).Pairwise (fun a b => lexLe a b = true) := by
  induction l with
  | nil => exact List.Pairwise.nil
  | cons j t ih => exact pairwise_insertAsc ih

theorem pairwise_sortAsc_lo (l : Tree) :
    (sortAsc l).Pairwise (fun a b => a.lo ≤ b.lo) := by
  apply (pairwise_sortAsc l).imp
  intro a b h
  rw [lexLe_iff] at h
  omega

theorem query_checked_of_mem {t : Tree} (hwf : WF t) {i : AddrIval}
    (hm : i ∈ t) (hnn : i.lo < i.hi) :
    intervaltree_query_checked t i.lo = some i := by
  unfold intervaltree_query_checked
  rw [queryPoint_eq_single hwf hm (by rw [coversB_iff]; omega)]
  rfl

theorem dropWhile_head_false {p : AddrIval → Bool} :
    ∀ {l : Tree} {x : AddrIval} {xs : Tree},
      l.dropWhile p = x :: xs → p x = false := by
  intro l
  induction l with
  | nil => intro x xs h; cases h
  | cons a l ih =>
    intro x xs h
    rw [List.dropWhile_cons] at h
    by_cases hpa : p a = true
    · rw [if_pos hpa] at h
      exact ih h
    · rw [if_neg hpa] at h
      cases h
      simpa using hpa

/-- Full specification of the compacting batch loop on a well-formed tree,
over a sorted working list of `FREED` tree members: every seed ends up
covered by some emitted interval; each emitted interval is a maximal run of
`FREED`/`REVOKED`-covered points; and the batch is strictly ordered by
address. -/
theorem compactLoop_spec {t : Tree} (hwf : WF t) :
    ∀ l : Tree,
      (∀ j ∈ l, j ∈ t ∧ j.state = FREED) →
      l.Pairwise (fun a b => a.lo ≤ b.lo) →
      (∀ j ∈ l, ∃ J ∈ compactLoop t l, J.lo ≤ j.lo ∧ j.hi ≤ J.hi) ∧
      (∀ J ∈ compactLoop t l,
        (∀ q : Int, J.lo ≤ q → q < J.hi → FRcovP t q) ∧
        ¬ FRcovP t (J.lo - 1) ∧ ¬ FRcovP t J.hi ∧ J.lo < J.hi) ∧
      (compactLoop t l).Pairwise (fun a b => a.hi < b.lo) := by
  intro l
  induction l using compactLoop.induct (t := t) with
  | case1 =>
    intro _ _
    rw [compactLoop]
    exact ⟨fun j hj => absurd hj (List.not_mem_nil j),
      fun J hJ => absurd hJ (List.not_mem_nil J), List.Pairwise.nil⟩
  | case2 seed rest hq ih =>
    intro hl _
    exfalso
    obtain ⟨hseedt, _⟩ := hl seed (List.mem_cons_self seed rest)
    have hqc := query_checked_of_mem hwf hseedt (hwf.1 seed hseedt)
    unfold intervaltree_query_coalesced at hq
    rw [hqc] at hq
    simp at hq
  | case3 seed rest ival hq ih =>
    intro hl hsort
    have hKmem : ∀ j ∈ rest, j ∈ t ∧ j.state = FREED :=
      fun j hj => hl j (List.mem_cons_of_mem seed hj)
    obtain ⟨hseedt, hseedF⟩ := hl seed (List.mem_cons_self seed rest)
    have hseednn := hwf.1 seed hseedt
    have hqc := query_checked_of_mem hwf hseedt hseednn
    obtain ⟨ival0, hq0, hival0t, hb1, hb2, hbst, hcov, hmaxL, hmaxR⟩ :=
      query_coalesced_spec hwf hq
    rw [hqc] at hq0
    simp only [Option.some.injEq] at hq0
    subst hq0
    have hcovFR : ∀ q : Int, ival.lo ≤ q → q < ival.hi → FRcovP t q := by
      intro q h1 h2
      obtain ⟨i, hi, hic, his⟩ := hcov q h1 h2
      refine ⟨i, hi, hic, ?_⟩
      rw [hseedF] at his
      simpa using his
    have hmaxLFR : ¬ FRcovP t (ival.lo - 1) := by
      rintro ⟨i, hi, hic, his⟩
      exact hmaxL ⟨i, hi, hic, by rw [hseedF]; simpa using his⟩
    have hmaxRFR : ¬ FRcovP t ival.hi := by
      rintro ⟨i, hi, hic, his⟩
      exact hmaxR ⟨i, hi, hic, by rw [hseedF]; simpa using his⟩
    have hJnn : ival.lo < ival.hi := by omega
    have hkeptsub : ∀ x ∈ rest.dropWhile (fun j => decide (j.lo ≤ ival.hi)),
        x ∈ rest := fun x hx => (List.dropWhile_suffix _).subset hx
    have hkeptmem : ∀ j ∈ rest.dropWhile (fun j => decide (j.lo ≤ ival.hi)),
        j ∈ t ∧ j.state = FREED := fun j hj => hKmem j (hkeptsub j hj)
    have hsortrest := (List.pairwise_cons.mp hsort).2
    have hseedle := (List.pairwise_cons.mp hsort).1
    have hkeptsort : (rest.dropWhile
        (fun j => decide (j.lo ≤ ival.hi))).Pairwise
        (fun a b => a.lo ≤ b.lo) :=
      hsortrest.sublist (List.dropWhile_suffix _).sublist
    obtain ⟨ihcov, ihJ, ihpw⟩ := ih hkeptmem hkeptsort
    have hkeptlo : ∀ s' ∈ rest.dropWhile (fun j => decide (j.lo ≤ ival.hi)),
        ival.hi < s'.lo := by
      cases hk : rest.dropWhile (fun j => decide (j.lo ≤ ival.hi)) with
      | nil =>
        intro s' hs'
        cases hs'
      | cons k0 ks =>
        have hk0 := dropWhile_head_false hk
        simp only [decide_eq_false_iff_not, not_le] at hk0
        intro s' hs'
        rcases List.mem_cons.mp hs' with rfl | hs''
        · exact hk0
        · have hpk := (List.pairwise_cons.mp (hk ▸ hkeptsort)).1 s' hs''
          omega
    have hrecty : ∀ J' ∈ compactLoop t (rest.dropWhile
        (fun j => decide (j.lo ≤ ival.hi))), ival.hi < J'.lo := by
      intro J' hJ'
      obtain ⟨seed', hs', hq'⟩ := compactLoop_mem _ J' hJ'
      obtain ⟨hseed't, hseed'F⟩ := hkeptmem seed' hs'
      obtain ⟨s0, hq0', hs0t, hc1, hc2, hcst, hcov', _, _⟩ :=
        query_coalesced_spec hwf hq'
      rw [query_checked_of_mem hwf hseed't (hwf.1 seed' hseed't)] at hq0'
      simp only [Option.some.injEq] at hq0'
      subst hq0'
      by_contra hle
      push_neg at hle
      have hsl := hkeptlo seed' hs'
      have hs'nn := hwf.1 seed' hseed't
      obtain ⟨i, hi, hic, his⟩ := hcov' ival.hi hle (by omega)
      exact hmaxRFR ⟨i, hi, hic, by rw [hseed'F] at his; simpa using his⟩
    have hloop : compactLoop t (seed :: rest) =
        ival :: compactLoop t (rest.dropWhile
          (fun j => decide (j.lo ≤ ival.hi))) := by
      rw [compactLoop, hq]
    rw [hloop]
    refine ⟨?_, ?_, ?_⟩
    · intro j hj
      rcases List.mem_cons.mp hj with rfl | hj'
      · exact ⟨ival, List.mem_cons_self _ _, hb1, hb2⟩
      · have hsplit := List.takeWhile_append_dropWhile
          (p := fun j => decide (j.lo ≤ ival.hi)) (l := rest)
        have hj2 : j ∈ rest.takeWhile (fun j => decide (j.lo ≤ ival.hi)) ∨
            j ∈ rest.dropWhile (fun j => decide (j.lo ≤ ival.hi)) := by
          rw [← hsplit] at hj'
          exact List.mem_append.mp hj'
        rcases hj2 with htw | hkw
        · have hpred := List.mem_takeWhile_imp htw
          simp only [decide_eq_true_eq] at hpred
          obtain ⟨hjt, hjF⟩ := hKmem j hj'
          have hjnn := hwf.1 j hjt
          have hjlo_ge : seed.lo ≤ j.lo := hseedle j hj'
          have hjlt : j.lo < ival.hi := by
            by_contra hnlt
            push_neg at hnlt
            have heq : j.lo = ival.hi := by omega
            exact hmaxRFR ⟨j, hjt, by rw [coversB_iff]; omega, Or.inl hjF⟩
          have hjhi : j.hi ≤ ival.hi := by
            by_contra hgt
            push_neg at hgt
            exact hmaxRFR ⟨j, hjt, by rw [coversB_iff]; omega, Or.inl hjF⟩
          exact ⟨ival, List.mem_cons_self _ _, by omega, hjhi⟩
        · obtain ⟨J', hJ', hc⟩ := ihcov j hkw
          exact ⟨J', List.mem_cons_of_mem _ hJ', hc⟩
    · intro J hJ
      rcases List.mem_cons.mp hJ with rfl | hJ'
      · exact ⟨hcovFR, hmaxLFR, hmaxRFR, hJnn⟩
      · exact ihJ J hJ'
    · rw [List.pairwise_cons]
      exact ⟨fun J' hJ' => hrecty J' hJ', ihpw⟩

theorem insertAsc_length (i : AddrIval) :
    ∀ l : Tree, (insertAsc i l).length = l.length + 1 := by
  intro l
  induction l with
  | nil => rfl
  | cons j t ih =>
    unfold insertAsc
    by_cases hle : lexLe i j = true
    · rw [if_pos hle]
      rfl
    · rw [if_neg hle]
      simp only [List.length_cons, ih]

theorem sortAsc_length (l : Tree) : (sortAsc l).length = l.length := by
  induction l with
  | nil => rfl
  | cons j t ih =>
    show (insertAsc j (sortAsc t)).length = t.length + 1
    rw [insertAsc_length, ih]

theorem compactLoop_length_le {t : Tree} :
    ∀ l : Tree, (compactLoop t l).length ≤ l.length := by
  intro l
  induction l using compactLoop.induct (t := t) with
  | case1 => rw [compactLoop]
  | case2 seed rest hq ih =>
    rw [compactLoop, hq]
    exact le_trans ih (by simp only [List.length_cons]; omega)
  | case3 seed rest ival hq ih =>
    rw [compactLoop, hq]
    show (ival :: compactLoop t (rest.dropWhile
      (fun j => decide (j.lo ≤ ival.hi)))).length ≤ (seed :: rest).length
    simp only [List.length_cons]
    have h2 := length_dropWhile_le_self (fun j => decide (j.lo ≤ ival.hi)) rest
    omega

theorem compactBatch_length_le (t : Tree) :
    (compactBatch t).length ≤ t.length := by
  unfold compactBatch
  refine le_trans (compactLoop_length_le _) ?_
  rw [sortAsc_length]
  exact List.length_filter_le _ _

/-- C3 (confirmed): on every reuse notification the Compacting revoker's
batch covers the entire currently-Freed set of the whole tree (independent
of the triggering range); each batch interval is a maximal coalesced run of
touching `FREED`/`REVOKED`-covered points; the batch is sorted by address;
it is submitted in one single sweep (one `amount` increment of the swept
counter); and afterwards every batch interval is entirely `REVOKED`. -/
theorem claim_C3_compacting_whole_freed_batch (cap amount swept : Nat)
    (t : Tree) (b e : Int) (hwf : WF t) (hcap : t.length ≤ cap) :
    (∀ i ∈ t, i.state = FREED →
      ∃ J ∈ compactBatch t, J.lo ≤ i.lo ∧ i.hi ≤ J.hi) ∧
    (∀ J ∈ compactBatch t,
      (∀ q : Int, J.lo ≤ q → q < J.hi → FRcovP t q) ∧
      ¬ FRcovP t (J.lo - 1) ∧ ¬ FRcovP t J.hi ∧ J.lo < J.hi) ∧
    (compactBatch t).Pairwise (fun a b => a.hi < b.lo) ∧
    (compactingReused cap amount swept t b e).1 = none ∧
    (compactingReused cap amount swept t b e).2.1 =
      swept + (if (compactBatch t).isEmpty then 0 else amount) ∧
    (∀ J ∈ compactBatch t, ∀ q : Int, J.lo ≤ q → q < J.hi →
      statesAt (compactingReused cap amount swept t b e).2.2 q = [REVOKED]) ∧
    (∀ b2 e2 : Int, compactingReused cap amount swept t b2 e2 =
      compactingReused cap amount swept t b e) := by
  have hwork : ∀ j ∈ sortAsc (t.filter (fun i => i.state = FREED)),
      j ∈ t ∧ j.state = FREED := by
    intro j hj
    have hjf := mem_sortAsc.mp hj
    exact ⟨List.mem_of_mem_filter hjf, by
      have := @List.of_mem_filter _ (fun i => decide (i.state = FREED)) j _ hjf
      simpa using this⟩
  obtain ⟨hcov, hJspec, hpw⟩ :=
    compactLoop_spec hwf (sortAsc (t.filter (fun i => i.state = FREED)))
      hwork (pairwise_sortAsc_lo _)
  have hcov' : ∀ i ∈ t, i.state = FREED →
      ∃ J ∈ compactBatch t, J.lo ≤ i.lo ∧ i.hi ≤ J.hi := by
    intro i hi hiF
    exact hcov i (mem_sortAsc.mpr (List.mem_filter.mpr ⟨hi, by simp [hiF]⟩))
  cases hemp : (compactBatch t).isEmpty with
  | true =>
    have hnil := List.isEmpty_iff.mp hemp
    rw [compactingReused_empty cap amount swept t b e hemp]
    refine ⟨hcov', hJspec, hpw, rfl, ?_, ?_, fun b2 e2 => ?_⟩
    · simp
    · intro J hJ
      rw [hnil] at hJ
      cases hJ
    · rw [compactingReused_empty cap amount swept t b2 e2 hemp]
  | false =>
    have hle : (compactBatch t).length ≤ cap :=
      le_trans (compactBatch_length_le t) hcap
    have hLnn : ∀ J ∈ compactBatch t, J.lo < J.hi :=
      fun J hJ => (hJspec J hJ).2.2.2
    have hLpw : (compactBatch t).Pairwise ivalDisjoint := by
      apply hpw.imp
      intro a b h
      unfold ivalDisjoint
      omega
    have hnoA : ∀ J ∈ compactBatch t, ∀ q : Int, J.lo ≤ q → q < J.hi →
        ALLOCD ∉ statesAt t q := by
      intro J hJ q h1 h2 hmemA
      obtain ⟨i, hi, hic, his⟩ := (hJspec J hJ).1 q h1 h2
      rw [statesAt_eq_single hwf hi hic] at hmemA
      simp at hmemA
      rw [← hmemA] at his
      rcases his with h | h <;> cases h
    obtain ⟨herr, hin, _, _, _⟩ :=
      revokeList_spec (compactBatch t) t hwf.1 hLnn hLpw hnoA
    rw [compactingReused_ok cap amount swept t b e hemp hle]
    refine ⟨hcov', hJspec, hpw, herr, ?_, hin, fun b2 e2 => ?_⟩
    · simp
    · rw [compactingReused_ok cap amount swept t b2 e2 hemp hle]

theorem claim_C3_witness :
    (compactingReused 16 7 100
      [⟨0, 10, FREED⟩, ⟨10, 20, REVOKED⟩, ⟨40, 50, FREED⟩] 41 45).1 = none :=
  (claim_C3_compacting_whole_freed_batch 16 7 100
    [⟨0, 10, FREED⟩, ⟨10, 20, REVOKED⟩, ⟨40, 50, FREED⟩] 41 45
    (by decide) (by decide)).2.2.2.1

/-! ## Claim C8: the coalesced `IntervalMap` and `_update`

`BaseIntervalAddrSpaceModel._update` keeps the `mapd_size` / `allocd_size`
aggregates over a coalesced `IntervalMap` (`self.__addr_ivals`). -/

/-- A segment of the coalesced interval map: a half-open range with an
optional state (`None` = no data, the initial sentinel value). -/
structure Seg where
  lo : Int
  hi : Int
  val : Option AddrIvalState
deriving DecidableEq, Repr

/-- Modelled from the spec: `common/intervalmap.py` (class `IntervalMap`) is
not under src/.  §4.2: the part of `s` before `b`, used by `assign` to keep
what an overwrite leaves on the left. -/
def segBefore (b : Int) (s : Seg) : Option Seg :=
  if s.lo < s.hi ∧ s.lo < b then some ⟨s.lo, min s.hi b, s.val⟩ else none

/-- Modelled from the spec: `common/intervalmap.py` is not under src/.  The
part of `s` after `e`, kept on the right of an overwrite. -/
def segAfter (e : Int) (s : Seg) : Option Seg :=
  if s.lo < s.hi ∧ e < s.hi then some ⟨max s.lo e, s.hi, s.val⟩ else none

/-- Modelled from the spec: `common/intervalmap.py` is not under src/.  The
clip of `s` to the window `[b, e)`, used by the map's range query, which per
§4.2 returns "the ordered sequence of intervals overlapping the range,
clipped to it". -/
def segClip (b e : Int) (s : Seg) : Option Seg :=
  if s.lo < s.hi ∧ s.lo < e ∧ b < s.hi ∧ b < e then
    some ⟨max s.lo b, min s.hi e, s.val⟩
  else none

/-- Modelled from the spec: merge adjacent same-state segments, §4.2's
"merges with any immediately-adjacent stored interval(s) carrying the
identical state". -/
def mergeAdjacent : List Seg → List Seg
  | [] => []
  | s :: rest =>
    match mergeAdjacent rest with
    | [] => [s]
    | s2 :: tail =>
      if s.hi = s2.lo ∧ s.val = s2.val then ⟨s.lo, s2.hi, s.val⟩ :: tail
      else s :: s2 :: tail

/-- Modelled from the spec: `IntervalMap.add` — "overwrites exactly
`[begin,end)` with the given state, then merges with any
immediately-adjacent stored interval(s) carrying the identical state". -/
def intervalmap_add (m : List Seg) (b e : Int) (v : Option AddrIvalState) :
    List Seg :=
  mergeAdjacent (m.filterMap (segBefore b) ++ ⟨b, e, v⟩ :: m.filterMap (segAfter e))

/-- Modelled from the spec: `IntervalMap` slicing `map[lo:hi]` — the ordered
overlapping segments clipped to the window. -/
def intervalmap_slice (m : List Seg) (lo hi : Int) : List Seg :=
  m.filterMap (segClip lo hi)

/-- The map's initial value `AddrIval(0, 2**64, None)`. -/
def intervalmap_init : List Seg := [⟨0, 2 ^ 64, none⟩]

/-- The sum `sum((i.end - i.begin) for i in overlaps if i.state is v)` from
`_update`. -/
def sumLenState (l : List Seg) (v : Option AddrIvalState) : Int :=
  (l.filter (fun s => s.val = v)).foldr (fun s acc => (s.hi - s.lo) + acc) 0

/-- The interval-map-backed model state: the coalesced map plus the two byte
aggregates maintained by `_update`. -/
structure BaseIntervalAddrSpaceModel where
  addr_ivals : List Seg
  mapd_size : Int
  allocd_size : Int
deriving DecidableEq, Repr

/-- `BaseIntervalAddrSpaceModel._update(ival)`: query the overlap window
`[begin-1, end+1)`, sum the `MAPD` and `ALLOCD` byte counts, add the
interval into the map, re-query and re-sum, and adjust both aggregates by
the deltas. -/
def BaseIntervalAddrSpaceModel.update (md : BaseIntervalAddrSpaceModel)
    (b e : Int) (v : Option AddrIvalState) : BaseIntervalAddrSpaceModel :=
  let overlaps := intervalmap_slice md.addr_ivals (b - 1) (e + 1)
  let mapd_size_old := sumLenState overlaps (some MAPD)
  let allocd_size_old := sumLenState overlaps (some ALLOCD)
  let m2 := intervalmap_add md.addr_ivals b e v
  let overlaps2 := intervalmap_slice m2 (b - 1) (e + 1)
  let mapd_size_new := sumLenState overlaps2 (some MAPD)
  let allocd_size_new := sumLenState overlaps2 (some ALLOCD)
  ⟨m2, md.mapd_size + (mapd_size_new - mapd_size_old),
    md.allocd_size + (allocd_size_new - allocd_size_old)⟩

def matchHere : List Char → List Char → Bool
  | [], _ => true
  | _ :: _, [] => false
  | a :: as, c :: cs => decide (a = c) && matchHere as cs

/-- `callstack.find(frame) >= 0`: substring search. -/
def hasSub (pat : List Char) : List Char → Bool
  | [] => matchHere pat []
  | s :: rest => matchHere pat (s :: rest) || hasSub pat rest

/-- The allocator-frame heuristic of `AllocatorAddrSpaceModel.mapd`. -/
def callstackMatches (cs : String) : Bool :=
  ["malloc", "calloc", "realloc", "free"].any
    (fun f => hasSub f.toList cs.toList)

/-- `AllocatorAddrSpaceModel.mapd(callstack, begin, end)`: recorded as
`MAPD` only when the call stack mentions an allocator frame. -/
def AllocatorAddrSpaceModel.mapd (md : BaseIntervalAddrSpaceModel)
    (callstack : String) (b e : Int) : BaseIntervalAddrSpaceModel :=
  if callstackMatches callstack then md.update b e (some MAPD) else md

/-- `AllocatorAddrSpaceModel.unmapd(callstack, begin, end)`: always recorded
as `UNMAPD`. -/
def AllocatorAddrSpaceModel.unmapd (md : BaseIntervalAddrSpaceModel)
    (callstack : String) (b e : Int) : BaseIntervalAddrSpaceModel :=
  md.update b e (some UNMAPD)

/-- Proof-side clipped length of segment `s` against window `[lo, hi)`;
the length of the piece `segClip lo hi s` when it exists, else 0. -/
def clipLen (lo hi : Int) (s : Seg) : Int :=
  if s.lo < s.hi ∧ s.lo < hi ∧ lo < s.hi ∧ lo < hi then
    (if s.hi ≤ hi then s.hi else hi) - (if lo ≤ s.lo then s.lo else lo)
  else 0

/-- Per-segment reformulation of the `_update` sums. -/
def segSum (v : Option AddrIvalState) (lo hi : Int) : List Seg → Int
  | [] => 0
  | s :: m => (if s.val = v then clipLen lo hi s else 0) + segSum v lo hi m

theorem sumLenState_cons (s : Seg) (l : List Seg) (v : Option AddrIvalState) :
    sumLenState (s :: l) v =
      (if s.val = v then s.hi - s.lo else 0) + sumLenState l v := by
  unfold sumLenState
  rw [List.filter_cons]
  by_cases h : s.val = v
  · simp [h]
  · simp [h]

theorem sumLenState_slice_eq_segSum (v : Option AddrIvalState) (lo hi : Int) :
    ∀ m : List Seg, sumLenState (intervalmap_slice m lo hi) v = segSum v lo hi m := by
  intro m
  induction m with
  | nil => rfl
  | cons s m ih =>
    unfold intervalmap_slice at ih
    show sumLenState ((s :: m).filterMap (segClip lo hi)) v = _
    rw [List.filterMap_cons]
    cases hc : segClip lo hi s with
    | none =>
      show sumLenState (m.filterMap (segClip lo hi)) v = _
      rw [ih]
      unfold segClip at hc
      split_ifs at hc with hcond
      rw [show segSum v lo hi (s :: m) =
          (if s.val = v then clipLen lo hi s else 0) + segSum v lo hi m
          from rfl,
        show clipLen lo hi s = 0 from if_neg hcond]
      simp
    | some piece =>
      show sumLenState (piece :: m.filterMap (segClip lo hi)) v = _
      rw [sumLenState_cons, ih]
      unfold segClip at hc
      split_ifs at hc with hcond
      simp only [Option.some.injEq] at hc
      subst hc
      show (if s.val = v then min s.hi hi - max s.lo lo else 0) + _ = _
      have hcl : clipLen lo hi s = min s.hi hi - max s.lo lo := by
        unfold clipLen
        rw [if_pos hcond, min_def, max_def]
        split_ifs <;> omega
      rw [← hcl]
      rfl

theorem segSum_append (v : Option AddrIvalState) (lo hi : Int) :
    ∀ l1 l2 : List Seg,
      segSum v lo hi (l1 ++ l2) = segSum v lo hi l1 + segSum v lo hi l2 := by
  intro l1 l2
  induction l1 with
  | nil => show segSum v lo hi l2 = 0 + segSum v lo hi l2; omega
  | cons s l ih =>
    show (if s.val = v then clipLen lo hi s else 0) + segSum v lo hi (l ++ l2) = _
    rw [ih]
    show _ = (if s.val = v then clipLen lo hi s else 0) + segSum v lo hi l +
      segSum v lo hi l2
    omega

theorem clipLen_split (s : Seg) {x y z : Int} (h1 : x ≤ y) (h2 : y ≤ z) :
    clipLen x z s = clipLen x y s + clipLen y z s := by
  unfold clipLen
  split_ifs <;> omega

theorem segSum_split (v : Option AddrIvalState) {x y z : Int} (h1 : x ≤ y)
    (h2 : y ≤ z) :
    ∀ m : List Seg, segSum v x z m = segSum v x y m + segSum v y z m := by
  intro m
  induction m with
  | nil => rfl
  | cons s m ih =>
    show (if s.val = v then clipLen x z s else 0) + segSum v x z m = _
    rw [ih, clipLen_split s h1 h2]
    show _ = (if s.val = v then clipLen x y s else 0) + segSum v x y m +
      ((if s.val = v then clipLen y z s else 0) + segSum v y z m)
    by_cases h : s.val = v <;> simp [h] <;> omega

theorem mergeAdjacent_nonnull :
    ∀ l : List Seg, (∀ s ∈ l, s.lo < s.hi) →
      ∀ s ∈ mergeAdjacent l, s.lo < s.hi := by
  intro l
  induction l with
  | nil => intro _ s hs; cases hs
  | cons a l ih =>
    intro hnn s hs
    have hnl : ∀ x ∈ l, x.lo < x.hi := fun x hx =>
      hnn x (List.mem_cons_of_mem a hx)
    have ha := hnn a (List.mem_cons_self a l)
    have hs0 : s ∈ (match mergeAdjacent l with
      | [] => [a]
      | s2 :: tail =>
        if a.hi = s2.lo ∧ a.val = s2.val then ⟨a.lo, s2.hi, a.val⟩ :: tail
        else a :: s2 :: tail) := hs
    cases hm : mergeAdjacent l with
    | nil =>
      rw [hm] at hs0
      simp at hs0
      subst hs0
      exact ha
    | cons s2 tail =>
      rw [hm] at hs0
      have hs1 : s ∈ (if a.hi = s2.lo ∧ a.val = s2.val then
          (⟨a.lo, s2.hi, a.val⟩ : Seg) :: tail else a :: s2 :: tail) := hs0
      have hs2 := ih hnl s2 (by rw [hm]; exact List.mem_cons_self s2 tail)
      by_cases hcond : a.hi = s2.lo ∧ a.val = s2.val
      · rw [if_pos hcond] at hs1
        rcases List.mem_cons.mp hs1 with rfl | hs'
        · show a.lo < s2.hi
          omega
        · exact ih hnl s (by rw [hm]; exact List.mem_cons_of_mem s2 hs')
      · rw [if_neg hcond] at hs1
        rcases List.mem_cons.mp hs1 with rfl | hs'
        · exact ha
        · exact ih hnl s (by rw [hm]; exact hs')

theorem clipLen_merge {a s2 : Seg} (lo hi : Int) (hj : a.hi = s2.lo)
    (h1 : a.lo < a.hi) (h2 : s2.lo < s2.hi) :
    clipLen lo hi ⟨a.lo, s2.hi, a.val⟩ = clipLen lo hi a + clipLen lo hi s2 := by
  unfold clipLen
  dsimp only
  split_ifs <;> omega

theorem segSum_mergeAdjacent (v : Option AddrIvalState) (lo hi : Int) :
    ∀ l : List Seg, (∀ s ∈ l, s.lo < s.hi) →
      segSum v lo hi (mergeAdjacent l) = segSum v lo hi l := by
  intro l
  induction l with
  | nil => intro _; rfl
  | cons a l ih =>
    intro hnn
    have hnl : ∀ x ∈ l, x.lo < x.hi := fun x hx =>
      hnn x (List.mem_cons_of_mem a hx)
    have ha := hnn a (List.mem_cons_self a l)
    have hgoal : segSum v lo hi (mergeAdjacent (a :: l)) =
        segSum v lo hi (match mergeAdjacent l with
          | [] => [a]
          | s2 :: tail =>
            if a.hi = s2.lo ∧ a.val = s2.val then ⟨a.lo, s2.hi, a.val⟩ :: tail
            else a :: s2 :: tail) := rfl
    rw [hgoal]
    cases hm : mergeAdjacent l with
    | nil =>
      have h0 : segSum v lo hi l = 0 := by
        rw [← ih hnl, hm]
        rfl
      show (if a.val = v then clipLen lo hi a else 0) + 0 = _
      rw [show segSum v lo hi (a :: l) =
        (if a.val = v then clipLen lo hi a else 0) + segSum v lo hi l from rfl,
        h0]
    | cons s2 tail =>
      have hs2 := mergeAdjacent_nonnull l hnl s2
        (by rw [hm]; exact List.mem_cons_self s2 tail)
      have hml : segSum v lo hi (s2 :: tail) = segSum v lo hi l := by
        rw [← hm]
        exact ih hnl
      show segSum v lo hi (if a.hi = s2.lo ∧ a.val = s2.val then
        (⟨a.lo, s2.hi, a.val⟩ : Seg) :: tail else a :: s2 :: tail) = _
      by_cases hcond : a.hi = s2.lo ∧ a.val = s2.val
      · rw [if_pos hcond]
        show (if (⟨a.lo, s2.hi, a.val⟩ : Seg).val = v then
            clipLen lo hi ⟨a.lo, s2.hi, a.val⟩ else 0) + segSum v lo hi tail = _
        show (if a.val = v then clipLen lo hi ⟨a.lo, s2.hi, a.val⟩ else 0) +
          segSum v lo hi tail = _
        rw [clipLen_merge lo hi hcond.1 ha hs2]
        have hstep : segSum v lo hi (a :: l) =
            (if a.val = v then clipLen lo hi a else 0) + segSum v lo hi l := rfl
        rw [hstep, ← hml]
        have hstep2 : segSum v lo hi (s2 :: tail) =
            (if s2.val = v then clipLen lo hi s2 else 0) + segSum v lo hi tail :=
          rfl
        rw [hstep2, ← hcond.2]
        by_cases h : a.val = v <;> simp [h] <;> omega
      · rw [if_neg hcond]
        have hstep : segSum v lo hi (a :: s2 :: tail) =
            (if a.val = v then clipLen lo hi a else 0) +
              segSum v lo hi (s2 :: tail) := rfl
        rw [hstep, hml]
        rfl

theorem segSum_before_eq (v : Option AddrIvalState) {lo hi b : Int}
    (hhi : hi ≤ b) :
    ∀ m : List Seg, segSum v lo hi (m.filterMap (segBefore b)) =
      segSum v lo hi m := by
  intro m
  induction m with
  | nil => rfl
  | cons s m ih =>
    rw [List.filterMap_cons]
    cases hb : segBefore b s with
    | none =>
      rw [ih]
      unfold segBefore at hb
      split_ifs at hb with hcond
      rw [show segSum v lo hi (s :: m) =
          (if s.val = v then clipLen lo hi s else 0) + segSum v lo hi m
          from rfl,
        show clipLen lo hi s = 0 from by unfold clipLen; split_ifs <;> omega]
      simp
    | some piece =>
      unfold segBefore at hb
      split_ifs at hb with hcond
      simp only [Option.some.injEq] at hb
      subst hb
      show (if s.val = v then clipLen lo hi ⟨s.lo, min s.hi b, s.val⟩ else 0) +
        segSum v lo hi (m.filterMap (segBefore b)) = _
      rw [ih,
        show clipLen lo hi ⟨s.lo, min s.hi b, s.val⟩ = clipLen lo hi s from by
          unfold clipLen
          dsimp only
          rw [min_def]
          split_ifs <;> omega]
      rfl

theorem segSum_before_zero (v : Option AddrIvalState) {lo hi b : Int}
    (hlo : b ≤ lo) :
    ∀ m : List Seg, segSum v lo hi (m.filterMap (segBefore b)) = 0 := by
  intro m
  induction m with
  | nil => rfl
  | cons s m ih =>
    rw [List.filterMap_cons]
    cases hb : segBefore b s with
    | none => rw [ih]
    | some piece =>
      unfold segBefore at hb
      split_ifs at hb with hcond
      simp only [Option.some.injEq] at hb
      subst hb
      show (if s.val = v then clipLen lo hi ⟨s.lo, min s.hi b, s.val⟩ else 0) +
        segSum v lo hi (m.filterMap (segBefore b)) = 0
      rw [ih,
        show clipLen lo hi ⟨s.lo, min s.hi b, s.val⟩ = 0 from by
          unfold clipLen
          dsimp only
          rw [min_def]
          split_ifs <;> omega]
      simp

theorem segSum_after_eq (v : Option AddrIvalState) {lo hi e : Int}
    (hlo : e ≤ lo) :
    ∀ m : List Seg, segSum v lo hi (m.filterMap (segAfter e)) =
      segSum v lo hi m := by
  intro m
  induction m with
  | nil => rfl
  | cons s m ih =>
    rw [List.filterMap_cons]
    cases hb : segAfter e s with
    | none =>
      rw [ih]
      unfold segAfter at hb
      split_ifs at hb with hcond
      rw [show segSum v lo hi (s :: m) =
          (if s.val = v then clipLen lo hi s else 0) + segSum v lo hi m
          from rfl,
        show clipLen lo hi s = 0 from by unfold clipLen; split_ifs <;> omega]
      simp
    | some piece =>
      unfold segAfter at hb
      split_ifs at hb with hcond
      simp only [Option.some.injEq] at hb
      subst hb
      show (if s.val = v then clipLen lo hi ⟨max s.lo e, s.hi, s.val⟩ else 0) +
        segSum v lo hi (m.filterMap (segAfter e)) = _
      rw [ih,
        show clipLen lo hi ⟨max s.lo e, s.hi, s.val⟩ = clipLen lo hi s from by
          unfold clipLen
          dsimp only
          rw [max_def]
          split_ifs <;> omega]
      rfl

theorem segSum_after_zero (v : Option AddrIvalState) {lo hi e : Int}
    (hhi : hi ≤ e) :
    ∀ m : List Seg, segSum v lo hi (m.filterMap (segAfter e)) = 0 := by
  intro m
  induction m with
  | nil => rfl
  | cons s m ih =>
    rw [List.filterMap_cons]
    cases hb : segAfter e s with
    | none => rw [ih]
    | some piece =>
      unfold segAfter at hb
      split_ifs at hb with hcond
      simp only [Option.some.injEq] at hb
      subst hb
      show (if s.val = v then clipLen lo hi ⟨max s.lo e, s.hi, s.val⟩ else 0) +
        segSum v lo hi (m.filterMap (segAfter e)) = 0
      rw [ih,
        show clipLen lo hi ⟨max s.lo e, s.hi, s.val⟩ = 0 from by
          unfold clipLen
          dsimp only
          rw [max_def]
          split_ifs <;> omega]
      simp

theorem segSum_zero_of_no_overlap {b e : Int} :
    ∀ m : List Seg,
      (∀ s ∈ m, s.val = some ALLOCD → ¬(s.lo < e ∧ b < s.hi)) →
      segSum (some ALLOCD) b e m = 0 := by
  intro m
  induction m with
  | nil => intro _; rfl
  | cons s m ih =>
    intro hno
    show (if s.val = some ALLOCD then clipLen b e s else 0) +
      segSum (some ALLOCD) b e m = 0
    rw [ih (fun x hx => hno x (List.mem_cons_of_mem s hx))]
    by_cases hv : s.val = some ALLOCD
    · rw [if_pos hv,
        show clipLen b e s = 0 from by
          have := hno s (List.mem_cons_self s m) hv
          unfold clipLen
          split_ifs <;> omega]
      omega
    · rw [if_neg hv]
      omega

theorem assign_pieces_nonnull (m : List Seg) (b e : Int)
    (v : Option AddrIvalState) (hbe : b < e) :
    ∀ s ∈ m.filterMap (segBefore b) ++ ⟨b, e, v⟩ :: m.filterMap (segAfter e),
      s.lo < s.hi := by
  intro s hs
  rcases List.mem_append.mp hs with h | h
  · obtain ⟨x, _, hxs⟩ := List.mem_filterMap.mp h
    unfold segBefore at hxs
    split_ifs at hxs with hcond
    simp only [Option.some.injEq] at hxs
    subst hxs
    show x.lo < min x.hi b
    rw [min_def]
    split_ifs <;> omega
  · rcases List.mem_cons.mp h with rfl | h'
    · exact hbe
    · obtain ⟨x, _, hxs⟩ := List.mem_filterMap.mp h'
      unfold segAfter at hxs
      split_ifs at hxs with hcond
      simp only [Option.some.injEq] at hxs
      subst hxs
      show max x.lo e < x.hi
      rw [max_def]
      split_ifs <;> omega

/-- Core of the amended C8: when no `ALLOCD` segment overlaps `[b, e)`,
`_update` with a non-`ALLOCD` state leaves `allocd_size` unchanged. -/
theorem update_allocd_size_frame (md : BaseIntervalAddrSpaceModel)
    (b e : Int) (v : Option AddrIvalState) (hbe : b < e)
    (hv : ¬ v = some ALLOCD)
    (hnn : ∀ s ∈ md.addr_ivals, s.lo < s.hi)
    (hno : ∀ s ∈ md.addr_ivals, s.val = some ALLOCD →
      ¬(s.lo < e ∧ b < s.hi)) :
    (md.update b e v).allocd_size = md.allocd_size := by
  have hred : (md.update b e v).allocd_size = md.allocd_size +
      (sumLenState (intervalmap_slice
          (intervalmap_add md.addr_ivals b e v) (b - 1) (e + 1)) (some ALLOCD) -
        sumLenState (intervalmap_slice md.addr_ivals (b - 1) (e + 1))
          (some ALLOCD)) := rfl
  rw [hred, sumLenState_slice_eq_segSum, sumLenState_slice_eq_segSum]
  have h1 : (b - 1 : Int) ≤ b := by omega
  have h2 : (b : Int) ≤ e := by omega
  have h3 : (e : Int) ≤ e + 1 := by omega
  have hnew : segSum (some ALLOCD) (b - 1) (e + 1)
      (intervalmap_add md.addr_ivals b e v) =
      segSum (some ALLOCD) (b - 1) b md.addr_ivals +
        segSum (some ALLOCD) e (e + 1) md.addr_ivals := by
    unfold intervalmap_add
    rw [segSum_mergeAdjacent _ _ _ _
        (assign_pieces_nonnull md.addr_ivals b e v hbe),
      segSum_append]
    have hmid : segSum (some ALLOCD) (b - 1) (e + 1)
        (⟨b, e, v⟩ :: md.addr_ivals.filterMap (segAfter e)) =
        (if v = some ALLOCD then clipLen (b - 1) (e + 1) ⟨b, e, v⟩ else 0) +
          segSum (some ALLOCD) (b - 1) (e + 1)
            (md.addr_ivals.filterMap (segAfter e)) := rfl
    rw [hmid, if_neg hv]
    rw [segSum_split (some ALLOCD) h1 (by omega : (b : Int) ≤ e + 1)
        (md.addr_ivals.filterMap (segBefore b)),
      segSum_split (some ALLOCD) h2 h3
        (md.addr_ivals.filterMap (segBefore b)),
      segSum_split (some ALLOCD) h1 (by omega : (b : Int) ≤ e + 1)
        (md.addr_ivals.filterMap (segAfter e)),
      segSum_split (some ALLOCD) h2 h3
        (md.addr_ivals.filterMap (segAfter e)),
      segSum_before_eq (some ALLOCD) (by omega : (b : Int) ≤ b),
      segSum_before_zero (some ALLOCD) (by omega : (b : Int) ≤ b),
      segSum_before_zero (some ALLOCD) (by omega : (b : Int) ≤ e),
      segSum_after_zero (some ALLOCD) (by omega : (b : Int) ≤ e),
      segSum_after_zero (some ALLOCD) (by omega : (e : Int) ≤ e),
      segSum_after_eq (some ALLOCD) (by omega : (e : Int) ≤ e)]
    omega
  have hold : segSum (some ALLOCD) (b - 1) (e + 1) md.addr_ivals =
      segSum (some ALLOCD) (b - 1) b md.addr_ivals +
        segSum (some ALLOCD) e (e + 1) md.addr_ivals := by
    rw [segSum_split (some ALLOCD) h1 (by omega : (b : Int) ≤ e + 1)
        md.addr_ivals,
      segSum_split (some ALLOCD) h2 h3 md.addr_ivals,
      segSum_zero_of_no_overlap md.addr_ivals hno]
    omega
  rw [hnew, hold]
  omega

/-- C8 counterexample: with `[0,100)` currently `ALLOCD`
(`allocd_size = 100`), a `map` event over `[0,100)` from an allocator frame
drops `allocd_size` to 0 — the allocation-lifecycle aggregate is not left
unchanged. -/
theorem claim_C8_counterexample :
    (AllocatorAddrSpaceModel.mapd
      (BaseIntervalAddrSpaceModel.update ⟨intervalmap_init, 0, 0⟩ 0 100
        (some ALLOCD)) "libc malloc" 0 100).allocd_size = 0 ∧
    ¬ (AllocatorAddrSpaceModel.mapd
      (BaseIntervalAddrSpaceModel.update ⟨intervalmap_init, 0, 0⟩ 0 100
        (some ALLOCD)) "libc malloc" 0 100).allocd_size =
      (BaseIntervalAddrSpaceModel.update ⟨intervalmap_init, 0, 0⟩ 0 100
        (some ALLOCD)).allocd_size := by decide

/-- C8 (amended): a `map` or `unmap` event over `[b, e)` leaves the
allocation-lifecycle aggregate `allocd_size` unchanged provided no `ALLOCD`
segment of the map overlaps `[b, e)`; when an `ALLOCD` segment does overlap,
the overwrite may change it (see the counterexample). -/
theorem claim_C8_map_unmap_allocd_frame (md : BaseIntervalAddrSpaceModel)
    (cs : String) (b e : Int) (hbe : b < e)
    (hnn : ∀ s ∈ md.addr_ivals, s.lo < s.hi)
    (hno : ∀ s ∈ md.addr_ivals, s.val = some ALLOCD →
      ¬(s.lo < e ∧ b < s.hi)) :
    (AllocatorAddrSpaceModel.mapd md cs b e).allocd_size = md.allocd_size ∧
    (AllocatorAddrSpaceModel.unmapd md cs b e).allocd_size = md.allocd_size := by
  constructor
  · unfold AllocatorAddrSpaceModel.mapd
    by_cases h : callstackMatches cs = true
    · rw [if_pos h]
      exact update_allocd_size_frame md b e (some MAPD) hbe (by simp) hnn hno
    · rw [if_neg h]
  · exact update_allocd_size_frame md b e (some UNMAPD) hbe (by simp) hnn hno

theorem claim_C8_witness :
    (AllocatorAddrSpaceModel.mapd ⟨[⟨0, 10, some FREED⟩], 3, 7⟩
      "malloc" 0 10).allocd_size = 7 ∧
    (AllocatorAddrSpaceModel.unmapd ⟨[⟨0, 10, some FREED⟩], 3, 7⟩
      "malloc" 0 10).allocd_size = 7 :=
  claim_C8_map_unmap_allocd_frame ⟨[⟨0, 10, some FREED⟩], 3, 7⟩ "malloc" 0 10
    (by decide) (by decide) (by decide)

end MSR
